import Mathlib

/-!
Verification of the GravityOS kernel scheduler, syscall surface, HFS+
reader and DMG partition reader against their natural-language
specification.  Each Rust function under scrutiny is shallowly embedded
as an executable Lean definition translated from the source; theorems
then settle the specified properties.
-/

set_option maxRecDepth 4000

deriving instance DecidableEq for Except

namespace GravityOS

namespace Sched

/-- Process lifecycle state (`ProcessState` in `kernel/src/scheduler.rs`). -/
inductive ProcessState where
  | Ready
  | Running
  | Dead
deriving DecidableEq

/-- A process record (`Process` in `kernel/src/scheduler.rs`), reduced to the
fields `schedule_next` reads or writes.  `ctx` stands for the heap-pinned
`CpuContext`; the raw context pointers the scheduler returns are modelled as
the process record itself, whose heap address is stable because every
`Process` is boxed. -/
structure Process where
  pid : Nat
  state : ProcessState
  ctx : Nat
deriving DecidableEq

/-- Scheduler state (`Scheduler` in `kernel/src/scheduler.rs`): a FIFO ready
queue plus an optional current process. -/
structure Scheduler where
  processes : List Process
  current_process : Option Process
deriving DecidableEq

/-- `Scheduler::schedule_next` (kernel/src/scheduler.rs:109-137).  Pops the
front of the ready queue as `next`; if a current process exists it is marked
Ready and pushed to the back; `next` becomes current.  The returned pair is
`(prev_ctx_ptr, next_ctx_ptr)`: the first component is whatever
`self.processes.back_mut()` yields after the push (modelled by `getLast?`),
the second the new current process.  Returns `none` (state unchanged) when
the ready queue is empty. -/
def scheduleNext (s : Scheduler) : Option (Option Process × Process) × Scheduler :=
  match s.processes with
  | [] => (none, s)
  | next :: rest =>
    let q : List Process :=
      match s.current_process with
      | some prev => rest ++ [{ prev with state := .Ready }]
      | none => rest
    (some (q.getLast?, next), { processes := q, current_process := some next })

/-- State transition of one `schedule_next` call (a cooperative yield). -/
def step (s : Scheduler) : Scheduler := (scheduleNext s).2

end Sched

namespace Syscall

/-- Trap frame (`TrapFrame` in `kernel/src/process.rs`): 31 general
registers (modelled as a total map from register index to value), ELR,
SPSR and SP_EL0.  Register values are u64, carried as `Nat`; all
operations below stay within 2^64. -/
structure TrapFrame where
  x : Nat → Nat
  elr : Nat
  spsr : Nat
  sp_el0 : Nat

/-- Write register `i` of a trap frame. -/
def setX (f : TrapFrame) (i v : Nat) : TrapFrame :=
  { f with x := fun j => if j = i then v else f.x j }

/-- `fn sys_getpid() -> u64 { 1 }` (kernel/src/process.rs:594-596): the
AArch64 getpid handler returns the constant 1, never consulting the
scheduler. -/
def sysGetpid : Nat := 1

/-- `handle_a64_syscall` (kernel/src/process.rs:537-550).  Selector in x8:
0 yield, 1 exit, 2 write, 3 spawn, 4 getpid.  Only the frame mutation is
modelled here: yield/exit/write leave the frame unchanged (they switch
context, halt, or print), spawn stores the new pid in x0 (the pid is a
parameter, produced by the scheduler's pid counter), getpid stores
`sysGetpid` in x0. -/
def handleA64Syscall (spawnedPid : Nat) (f : TrapFrame) : TrapFrame :=
  match f.x 8 with
  | 0 => f
  | 1 => f
  | 2 => f
  | 3 => setX f 0 spawnedPid
  | 4 => setX f 0 sysGetpid
  | _ => f

/-- Errno ENOENT = 2 returned by the AArch32 open syscall when the VFS
lookup fails. -/
def ENOENT : Nat := 2

/-- Errno EMFILE = 24 returned by the AArch32 open syscall when no file
descriptor slot is free. -/
def EMFILE : Nat := 24

/-- The AArch32 error flag: SPSR carry, bit 29 (0x20000000). -/
def carryBit : Nat := 0x20000000

/-- `frame.spsr |= 0x20000000` — signal an error to AArch32 user code. -/
def setCarry (f : TrapFrame) : TrapFrame :=
  { f with spsr := f.spsr ||| carryBit }

/-- `frame.spsr &= !0x20000000` — signal success to AArch32 user code
(the complement is taken in u64). -/
def clearCarry (f : TrapFrame) : TrapFrame :=
  { f with spsr := f.spsr &&& (2 ^ 64 - 1 - carryBit) }

/-- The descriptor search of the open handler: the first index whose slot
is `None` (`for (fd, slot) in proc.files.iter_mut().enumerate()`), where a
file handle is modelled as an opaque `Nat`. -/
def findFreeFd (files : List (Option Nat)) : Option Nat :=
  match files with
  | [] => none
  | slot :: rest => if slot.isNone then some 0 else (findFreeFd rest).map (· + 1)

/-- The AArch32 `open` syscall, number 5 (kernel/src/process.rs:268-324),
from the point where the NUL-terminated path has been copied out of user
memory.  `vfsOpen` stands for the VFS collaborator `crate::vfs::open`;
`files` is the current process's descriptor table (32 slots).  Returns the
updated descriptor table and trap frame. -/
def sysOpen (vfsOpen : String → Option Nat) (path : String)
    (files : List (Option Nat)) (f : TrapFrame) : List (Option Nat) × TrapFrame :=
  match vfsOpen path with
  | some handle =>
    match findFreeFd files with
    | some fd => (files.set fd (some handle), clearCarry (setX f 0 fd))
    | none => (files, setCarry (setX f 0 EMFILE))
  | none => (files, setCarry (setX f 0 ENOENT))

end Syscall

namespace Hfs

/-- The hfsplus error type (`Error` in `lib/hfsplus/lib.rs`); the
`InvalidData` message string is dropped. -/
inductive HError where
  | invalidData
  | badNode
  | invalidRecordKey
  | invalidRecordType
  | unsupportedOperation
  | keyNotFound
deriving DecidableEq

/-- A catalog key (`CatalogKey` in `lib/hfsplus/internal.rs`): parent folder
id and node name.  The name is carried as its UTF-16 unit list; the
`_case_match` field is never read and is omitted. -/
structure CatalogKeyM where
  parent_id : Nat
  node_name : List Nat
deriving DecidableEq

/-- A catalog record body (`CatalogBody`), reduced to the fields
`get_path_record_impl` reads: a Folder's `folderID`, a File's `fileID`
(identity only), and the target key of thread records. -/
inductive CatalogBodyM where
  | folder (folderID : Nat)
  | file (fileID : Nat)
  | folderThread (key : CatalogKeyM)
  | fileThread (key : CatalogKeyM)
deriving DecidableEq

/-- A catalog record (`CatalogRecord`): its key and body. -/
structure CatalogRecordM where
  key : CatalogKeyM
  body : CatalogBodyM
deriving DecidableEq

/-- Helper for `filename.split('/')`: cut a character list at every `/`. -/
def splitSlashAux (cs : List Char) (acc : List Char) : List (List Char) :=
  match cs with
  | [] => [acc.reverse]
  | c :: rest =>
    if c = '/' then acc.reverse :: splitSlashAux rest [] else splitSlashAux rest (c :: acc)

/-- `filename.split('/').filter(|s| !s.is_empty())` from
`get_path_record_impl`. -/
def splitParts (s : String) : List (List Char) :=
  (splitSlashAux s.data []).filter fun p => !p.isEmpty

/-- The per-component loop of `HFSVolume::get_path_record_impl`
(lib/hfsplus/lib.rs:983-1013).  `lookup` stands for `btree.get_record`
(the catalog B-tree point query) and `encode` for NFD normalization
followed by UTF-16 encoding of one path component.  The `Nat` is
`current_folder_id`, the `Option CatalogRecordM` the running
`current_record`. -/
def resolveParts (lookup : CatalogKeyM → Except HError CatalogRecordM)
    (encode : List Char → List Nat) :
    Nat → Option CatalogRecordM → List (List Char) → Except HError CatalogRecordM
  | _, cur, [] =>
    match cur with
    | some r => .ok r
    | none => .error .keyNotFound
  | folderId, _, part :: rest =>
    match lookup ⟨folderId, encode part⟩ with
    | .error e => .error e
    | .ok r =>
      match r.body with
      | .folder fid => resolveParts lookup encode fid (some r) rest
      | .file _ =>
        if rest.isEmpty then resolveParts lookup encode folderId (some r) rest
        else .error .keyNotFound
      | .folderThread _ => .error .invalidRecordType
      | .fileThread _ => .error .invalidRecordType

/-- `HFSVolume::get_path_record_impl` (lib/hfsplus/lib.rs:942-1014): split
the path on `/` discarding empty components; an empty part list resolves
the root via its thread record `(2, "")` (any failure of that branch falls
through to `current_record.ok_or(KeyNotFound)`); otherwise walk the
components from the root folder id 2. -/
def getPathRecordImpl (lookup : CatalogKeyM → Except HError CatalogRecordM)
    (encode : List Char → List Nat) (filename : String) :
    Except HError CatalogRecordM :=
  let parts := splitParts filename
  if parts.isEmpty then
    match lookup ⟨2, []⟩ with
    | .ok record =>
      match record.body with
      | .folderThread thread_data =>
        match lookup thread_data with
        | .ok real => .ok real
        | .error e => .error e
      | _ => .error .keyNotFound
    | .error _ => .error .keyNotFound
  else
    resolveParts lookup encode 2 none parts

/-- A two-entry catalog used to exercise `get_path_record_impl`: folder
`a` (id 5) under the root, file `b` under `a`. -/
def tinyCatalog : CatalogKeyM → Except HError CatalogRecordM := fun k =>
  if k = ⟨2, ['a'].map Char.toNat⟩ then
    .ok ⟨⟨2, ['a'].map Char.toNat⟩, .folder 5⟩
  else if k = ⟨5, ['b'].map Char.toNat⟩ then
    .ok ⟨⟨5, ['b'].map Char.toNat⟩, .file 7⟩
  else .error .keyNotFound

/-- Name encoding used with `tinyCatalog` (its names are plain ASCII, so
NFD plus UTF-16 is the identity on code points). -/
def tinyEncode : List Char → List Nat := fun cs => cs.map Char.toNat

/-- Outcome of running a Rust function that may abort: a normal return, a
returned `Err`, or a panic (slice-index or checked-arithmetic abort). -/
inductive PRes (α : Type) where
  | ok (a : α)
  | err (e : HError)
  | panic
deriving DecidableEq

/-- Byte `i` of a buffer (in-bounds accesses only are ever relied upon). -/
def byteAt (data : List Nat) (i : Nat) : Nat := data.getD i 0

/-- Big-endian u16 at offset `i`. -/
def beU16At (data : List Nat) (i : Nat) : Nat := byteAt data i * 256 + byteAt data (i + 1)

/-- Big-endian u32 at offset `i`. -/
def beU32At (data : List Nat) (i : Nat) : Nat :=
  byteAt data i * 2 ^ 24 + byteAt data (i + 1) * 2 ^ 16 +
    byteAt data (i + 2) * 2 ^ 8 + byteAt data (i + 3)

/-- A byte reinterpreted as i8. -/
def i8Of (b : Nat) : Int := if b < 128 then (b : Int) else (b : Int) - 256

/-- `BTNodeDescriptor` (lib/hfsplus/internal.rs): the 14-byte node
descriptor. -/
structure BTNodeDescriptor where
  fLink : Nat
  bLink : Nat
  kind : Int
  height : Nat
  numRecords : Nat
  reserved : Nat
deriving DecidableEq

/-- `BTNodeDescriptor::import`: six big-endian reads through a cursor over
the node buffer; a short buffer surfaces as the cursor's unexpected-EOF
`InvalidData` error. -/
def importNodeDescriptor (data : List Nat) : Except HError BTNodeDescriptor :=
  if data.length < 14 then .error .invalidData
  else .ok ⟨beU32At data 0, beU32At data 4, i8Of (byteAt data 8), byteAt data 9,
    beU16At data 10, beU16At data 12⟩

/-- `BTHeaderRec` (lib/hfsplus/internal.rs), the header node's first
record. -/
structure BTHeaderRecM where
  treeDepth : Nat
  rootNode : Nat
  leafRecords : Nat
  firstLeafNode : Nat
  lastLeafNode : Nat
  nodeSize : Nat
  maxKeyLength : Nat
  totalNodes : Nat
  freeNodes : Nat
  reserved1 : Nat
  clumpSize : Nat
  btreeType : Nat
  keyCompareType : Nat
  attributes : Nat
  reserved3 : List Nat
deriving DecidableEq

/-- `BTHeaderRec::import`: 106 bytes of big-endian fields read through a
cursor; a shorter record errors with unexpected EOF. -/
def importBTHeaderRec (b : List Nat) : Except HError BTHeaderRecM :=
  if b.length < 106 then .error .invalidData
  else .ok
    { treeDepth := beU16At b 0
      rootNode := beU32At b 2
      leafRecords := beU32At b 6
      firstLeafNode := beU32At b 10
      lastLeafNode := beU32At b 14
      nodeSize := beU16At b 18
      maxKeyLength := beU16At b 20
      totalNodes := beU32At b 22
      freeNodes := beU32At b 26
      reserved1 := beU16At b 30
      clumpSize := beU32At b 32
      btreeType := byteAt b 36
      keyCompareType := byteAt b 37
      attributes := beU32At b 38
      reserved3 := (List.range 16).map fun i => beU32At b (42 + 4 * i) }

/-- The four node shapes produced by `Node::load`. -/
inductive NodeM (K R : Type) where
  | headerNode (descriptor : BTNodeDescriptor) (header : BTHeaderRecM)
      (user_data : List Nat) (mapBytes : List Nat)
  | mapNode (descriptor : BTNodeDescriptor)
  | indexNode (descriptor : BTNodeDescriptor) (records : List (K × Nat))
  | leafNode (descriptor : BTNodeDescriptor) (records : List R)
deriving DecidableEq

/-- `&data[first..last]`: Rust slicing panics when `first > last` or
`last > data.len()`. -/
def sliceOrPanic (data : List Nat) (first last : Nat) : PRes (List Nat) :=
  if first ≤ last ∧ last ≤ data.length then .ok ((data.drop first).take (last - first))
  else .panic

/-- `records[i]`: Rust indexing panics out of bounds. -/
def getOrPanic {α : Type} (l : List α) (i : Nat) : PRes α :=
  match l.get? i with
  | some x => .ok x
  | none => .panic

/-- Error-propagating map over a list (a `for` loop returning on the first
`Err`). -/
def mapExcept {α β : Type} (f : α → Except HError β) : List α → Except HError (List β)
  | [] => .ok []
  | a :: l =>
    match f a with
    | .ok b =>
      match mapExcept f l with
      | .ok bs => .ok (b :: bs)
      | .error e => .error e
    | .error e => .error e

/-- Panic- and error-propagating map over a list. -/
def mapPRes {α β : Type} (f : α → PRes β) : List α → PRes (List β)
  | [] => .ok []
  | a :: l =>
    match f a with
    | .ok b =>
      match mapPRes f l with
      | .ok bs => .ok (b :: bs)
      | .err e => .err e
      | .panic => .panic
    | .err e => .err e
    | .panic => .panic

/-- Parse one index record: `K::import` from a cursor over the record
bytes, then `read_u32_be` for the child node id. -/
def importIndexRecord {K : Type} (kImport : List Nat → Except HError (K × List Nat))
    (bytes : List Nat) : Except HError (K × Nat) :=
  match kImport bytes with
  | .error e => .error e
  | .ok (key, rest) =>
    if rest.length < 4 then .error .invalidData
    else .ok (key, beU32At rest 0)

/-- Parse one leaf record: `K::import` then `R::import` on the remaining
bytes. -/
def importLeafRecord {K R : Type} (kImport : List Nat → Except HError (K × List Nat))
    (rImport : List Nat → K → Except HError R) (bytes : List Nat) : Except HError R :=
  match kImport bytes with
  | .error e => .error e
  | .ok (key, rest) => rImport rest key

/-- `Node::load` (lib/hfsplus/lib.rs:352-417).  `kImport` and `rImport`
stand for the key and record `import` parsers (they consume a byte cursor;
`kImport` returns the unread remainder).  Mirrors the source statement by
statement: descriptor parse; `data.len() - num_offsets * 2` (a usize
subtraction that aborts on underflow); the offset-array read with its
`[14, last_offset_pos]` validation; the record-slice loop
`&data[offsets[idx]..offsets[idx+1]]` (Rust slicing panics when the
offsets are out of order); then the per-kind record parsing, which indexes
`records[0..3]` for a header node (panicking when fewer records exist). -/
def nodeLoad {K R : Type} (kImport : List Nat → Except HError (K × List Nat))
    (rImport : List Nat → K → Except HError R) (data : List Nat) : PRes (NodeM K R) :=
  match importNodeDescriptor data with
  | .error e => .err e
  | .ok node =>
    let num_offsets := node.numRecords + 1
    if data.length < num_offsets * 2 then .panic
    else
      let last_offset_pos := data.length - num_offsets * 2
      let offsets := (List.range num_offsets).map fun idx =>
        beU16At data (data.length - 2 - 2 * idx)
      if offsets.all (fun off => decide (14 ≤ off) && decide (off ≤ last_offset_pos)) then
        match mapPRes (fun p => sliceOrPanic data p.1 p.2) (offsets.zip offsets.tail) with
        | .panic => .panic
        | .err e => .err e
        | .ok records =>
          if node.kind = 1 then
            match getOrPanic records 0 with
            | .panic => .panic
            | .err e => .err e
            | .ok r0 =>
              match importBTHeaderRec r0 with
              | .error e => .err e
              | .ok header =>
                match getOrPanic records 1 with
                | .panic => .panic
                | .err e => .err e
                | .ok r1 =>
                  match getOrPanic records 2 with
                  | .panic => .panic
                  | .err e => .err e
                  | .ok r2 => .ok (.headerNode node header r1 r2)
          else if node.kind = 2 then .ok (.mapNode node)
          else if node.kind = 0 then
            match mapExcept (importIndexRecord kImport) records with
            | .error e => .err e
            | .ok recs => .ok (.indexNode node recs)
          else if node.kind = -1 then
            match mapExcept (importLeafRecord kImport rImport) records with
            | .error e => .err e
            | .ok recs => .ok (.leafNode node recs)
          else .err .invalidData
      else .err .invalidData

/-- The value `BTree::open` produces: the node size plus the parsed header
node. -/
structure BTreeOpened where
  node_size : Nat
  descriptor : BTNodeDescriptor
  header : BTHeaderRecM
  user_data : List Nat
  mapBytes : List Nat
deriving DecidableEq

/-- `BTree::open` (lib/hfsplus/lib.rs:428-451) over an in-memory byte
stream (`Cursor`): read 512 bytes (unexpected EOF errors), take the node
size from offset 32, allocate `vec![0; node_size]` and
`full_buffer[..512].copy_from_slice(&buffer)` — a slice operation that
panics when `node_size < 512` — then read the rest of the first node and
hand it to `Node::load`, demanding a header node. -/
def btreeOpen {K R : Type} (kImport : List Nat → Except HError (K × List Nat))
    (rImport : List Nat → K → Except HError R) (stream : List Nat) : PRes BTreeOpened :=
  if stream.length < 512 then .err .invalidData
  else
    let node_size := beU16At stream 32
    if node_size < 512 then .panic
    else if stream.length < node_size then .err .invalidData
    else
      match nodeLoad kImport rImport (stream.take node_size) with
      | .panic => .panic
      | .err e => .err e
      | .ok (NodeM.headerNode d h u m) => .ok ⟨node_size, d, h, u, m⟩
      | .ok _ => .err .badNode

/-- A 512-byte node image whose descriptor says `numRecords = 2` and whose
offset array holds the out-of-order (but individually valid) offsets
20, 16, 30. -/
def badOffsetsNode : List Nat :=
  [0, 0, 0, 0, 0, 0, 0, 0, 0, 0, 0, 2, 0, 0] ++ List.replicate 492 0 ++
    [0, 30, 0, 16, 0, 20]

/-- A key parser that always fails (`Nat` keys); the panic inputs below
never reach it. -/
def stubKeyImport : List Nat → Except HError (Nat × List Nat) :=
  fun _ => .error .invalidRecordKey

/-- A record parser that always fails (`Nat` records); the panic inputs
below never reach it. -/
def stubRecImport : List Nat → Nat → Except HError Nat :=
  fun _ _ => .error .invalidRecordType

end Hfs

namespace BT

open Hfs (PRes HError)

/-- A B-tree node as `get_record` sees it after `Node::load`: an index node
is a list of `(key, child node id)` records, a leaf node a list of keyed
records plus its forward link.  Keys are any linearly ordered type (the
code is generic in `K: Ord`), record payloads are `R`. -/
inductive BNode (K R : Type) where
  | index (records : List (K × Nat))
  | leaf (records : List (K × R)) (fLink : Nat)
deriving DecidableEq

/-- The index-node scan of `get_record_node` (lib/hfsplus/lib.rs:468-480):
start from `records[0]`, advance while the next record's key is not
greater than the target; the last record with key ≤ target wins. -/
def chooseChild {K : Type} [LinearOrder K] (key : K) (best : K × Nat) :
    List (K × Nat) → K × Nat
  | [] => best
  | r :: rest => if key < r.1 then best else chooseChild key r rest

/-- The leaf-record scan of `get_record_node` (lib/hfsplus/lib.rs:482-489):
walking the records in order, a key greater than the target fails with
`KeyNotFound`, an equal key returns the record, and exhausting the node
(`none`) sends the loop to the `fLink` chain. -/
def leafScan {K R : Type} [LinearOrder K] (key : K) :
    List (K × R) → Option (PRes R)
  | [] => none
  | (k, r) :: rest =>
    if key < k then some (.err .keyNotFound)
    else if key = k then some (.ok r)
    else leafScan key rest

/-- `BTree::get_record_node` (lib/hfsplus/lib.rs:465-501), with `get_node`
abstracted as a map `store` from node ids to loaded nodes (`none` standing
for a read or parse failure, surfaced as an error).  The `fuel` bounds the
recursion depth plus leaf-chain hops, returning `none` when exhausted;
every theorem below supplies enough fuel for the result to be the
function's value.  An empty index node panics (`x.records[0]`); a key below
the first index key errors with `InvalidRecordKey`; of the leaf loop, an
exhausted node with `fLink = 0` yields `KeyNotFound`, and a non-leaf node
behind `fLink` yields `BadNode`. -/
def getRecordNode {K R : Type} [LinearOrder K]
    (store : Nat → Option (BNode K R)) (key : K) :
    Nat → Nat → Option (PRes R)
  | 0, _ => none
  | fuel + 1, nid =>
    match store nid with
    | none => some (.err .invalidData)
    | some (.index records) =>
      match records with
      | [] => some .panic
      | first :: rest =>
        if key < first.1 then some (.err .invalidRecordKey)
        else getRecordNode store key fuel (chooseChild key first rest).2
    | some (.leaf records fl) =>
      match leafScan key records with
      | some res => some res
      | none =>
        if fl = 0 then some (.err .keyNotFound)
        else
          match store fl with
          | some (.leaf _ _) => getRecordNode store key fuel fl
          | some _ => some (.err .badNode)
          | none => some (.err .invalidData)

/-- `BTree::get_record` (lib/hfsplus/lib.rs:461-463): descend from the
header's root node. -/
def getRecord {K R : Type} [LinearOrder K] (store : Nat → Option (BNode K R))
    (rootNode : Nat) (key : K) (fuel : Nat) : Option (PRes R) :=
  getRecordNode store key fuel rootNode

/-- A leaf of the tree, as (node id, records). -/
abbrev LeafRec (K R : Type) := Nat × List (K × R)

/-- All records of a leaf list, in chain order. -/
def entriesOf {K R : Type} (lvs : List (LeafRec K R)) : List (K × R) :=
  (lvs.map Prod.snd).flatten

/-- All record keys of a leaf list, in chain order. -/
def keysOf {K R : Type} (lvs : List (LeafRec K R)) : List K :=
  (entriesOf lvs).map Prod.fst

/-- `Sub store h nid lvs`: node `nid` roots a height-`h` subtree whose
leaves, left to right, are `lvs`.  Index records carry the first key of
their child's subtree (the HFS+ B-tree invariant). -/
inductive Sub {K R : Type} (store : Nat → Option (BNode K R)) :
    Nat → Nat → List (LeafRec K R) → Prop where
  | leaf : ∀ nid entries fl, store nid = some (.leaf entries fl) →
      Sub store 0 nid [(nid, entries)]
  | index : ∀ (h nid : Nat) (recs : List (K × Nat))
      (lvsList : List (List (LeafRec K R))), store nid = some (.index recs) →
      recs ≠ [] → recs.length = lvsList.length →
      (∀ i (hi : i < recs.length) (hj : i < lvsList.length),
        Sub store h (recs.get ⟨i, hi⟩).2 (lvsList.get ⟨i, hj⟩)) →
      (∀ i (hi : i < recs.length) (hj : i < lvsList.length),
        ((entriesOf (lvsList.get ⟨i, hj⟩)).head?).map Prod.fst =
          some (recs.get ⟨i, hi⟩).1) →
      Sub store (h + 1) nid lvsList.flatten

/-- The forward link a well-formed leaf at position `i` must carry: the id
of the next leaf, or 0 at the end of the chain. -/
def nextId {K R : Type} (lvs : List (LeafRec K R)) (i : Nat) : Nat :=
  match lvs.get? (i + 1) with
  | some l => l.1
  | none => 0

/-- The leaf chain is linked through `fLink` in order, ending at 0. -/
def ChainLinked {K R : Type} (store : Nat → Option (BNode K R))
    (lvs : List (LeafRec K R)) : Prop :=
  ∀ i (hi : i < lvs.length),
    store (lvs.get ⟨i, hi⟩).1 =
      some (.leaf (lvs.get ⟨i, hi⟩).2 (nextId lvs i))

/-- A well-formed B-tree: a subtree relation from the root, a linked leaf
chain, strictly sorted keys, non-empty leaves with non-zero ids. -/
structure WF {K R : Type} [LinearOrder K] (store : Nat → Option (BNode K R))
    (rootNode height : Nat) (lvs : List (LeafRec K R)) : Prop where
  sub : Sub store height rootNode lvs
  chain : ChainLinked store lvs
  sorted : (keysOf lvs).Pairwise (· < ·)
  leaves_nonempty : ∀ l ∈ lvs, l.2 ≠ []
  ids_nonzero : ∀ l ∈ lvs, l.1 ≠ 0

/-- A concrete two-level B-tree over `Nat` keys: root index node 1 over
leaves 2 and 3, holding keys 10, 20, 30. -/
def store6 : Nat → Option (BNode Nat Nat) := fun n =>
  if n = 1 then some (.index [(10, 2), (30, 3)])
  else if n = 2 then some (.leaf [(10, 100), (20, 200)] 3)
  else if n = 3 then some (.leaf [(30, 300)] 0)
  else none

/-- The leaf chain of `store6`. -/
def lvs6 : List (LeafRec Nat Nat) := [(2, [(10, 100), (20, 200)]), (3, [(30, 300)])]

end BT

namespace Dmg

/-- Modelled from the spec: the chunk types of a BLKX table (§3/§6 of the
spec; `blkx.rs` is not under src/, only its users in `apple-dmg/lib.rs`
are). -/
inductive ChunkType where
  | zero
  | raw
  | ignore
  | comment
  | adc
  | zlib
  | bzlib
  | lzfse
  | term
deriving DecidableEq

/-- Modelled from the spec: the u32 chunk-type codes (§6): 0 Zero, 1 Raw,
2 Ignore, 0x80000004 Comment, 0x80000005 Adc, 0x80000006 Zlib,
0x80000007 Bzlib, 0x80000008 Lzfse, 0xFFFFFFFF Term; `BlkxChunk::ty`
returns `None` on any other code. -/
def tyOfCode (code : Nat) : Option ChunkType :=
  if code = 0 then some .zero
  else if code = 1 then some .raw
  else if code = 2 then some .ignore
  else if code = 0x80000004 then some .comment
  else if code = 0x80000005 then some .adc
  else if code = 0x80000006 then some .zlib
  else if code = 0x80000007 then some .bzlib
  else if code = 0x80000008 then some .lzfse
  else if code = 0xFFFFFFFF then some .term
  else none

/-- Modelled from the spec: a 40-byte BLKX chunk entry (§6), with the type
already decoded (`ty()` is total on the partitions the claims quantify
over). -/
structure BlkxChunk where
  ty : ChunkType
  sector_number : Nat
  sector_count : Nat
  compressed_offset : Nat
  compressed_length : Nat
deriving DecidableEq

/-- The `compressed_length` bytes at `compressed_offset` of the backing
stream (`disk` maps a byte offset to the byte there). -/
def rawBytes (disk : Nat → Nat) (c : BlkxChunk) : List Nat :=
  (List.range c.compressed_length).map fun i => disk (c.compressed_offset + i)

/-- Decoding one chunk, shared verbatim by `DmgReader::sector`
(apple-dmg/lib.rs:58-77) and `DmgPartitionReader::load_chunk`
(lib.rs:199-220): Ignore/Zero emit `sector_count*512` zero bytes,
Comment/Term emit nothing, Raw copies `compressed_length` bytes from
`compressed_offset`, Zlib inflates them (`inflate` abstracts the zlib
decoder both paths instantiate identically); Adc/Bzlib/Lzfse hit
`unimplemented!` — modelled as `none`. -/
def decodeChunk (inflate : List Nat → List Nat) (disk : Nat → Nat)
    (c : BlkxChunk) : Option (List Nat) :=
  match c.ty with
  | .ignore => some (List.replicate (c.sector_count * 512) 0)
  | .zero => some (List.replicate (c.sector_count * 512) 0)
  | .comment => some []
  | .term => some []
  | .raw => some (rawBytes disk c)
  | .zlib => some (inflate (rawBytes disk c))
  | .adc => none
  | .bzlib => none
  | .lzfse => none

/-- `DmgReader::partition_data` (apple-dmg/lib.rs:96-103): the one-shot
reader, concatenating every chunk's decoded bytes in table order; `none`
when a chunk type is unsupported. -/
def partitionData (inflate : List Nat → List Nat) (disk : Nat → Nat) :
    List BlkxChunk → Option (List Nat)
  | [] => some []
  | c :: rest =>
    match decodeChunk inflate disk c with
    | none => none
    | some d =>
      match partitionData inflate disk rest with
      | none => none
      | some ds => some (d ++ ds)

/-- `MAX_CACHE_CHUNKS` (apple-dmg/lib.rs:151). -/
def MAX_CACHE_CHUNKS : Nat := 256

/-- `DmgPartitionReader` (apple-dmg/lib.rs:142-149): chunk table, byte
position, total size, and the LRU cache — the `BTreeMap` as an association
list, the recency list `cache_order` front-oldest. -/
structure PReader where
  chunks : List BlkxChunk
  pos : Nat
  total_size : Nat
  cache : List (Nat × List Nat)
  cache_order : List Nat
deriving DecidableEq

/-- Sum of the sector counts of a chunk table. -/
def totalSectors (chunks : List BlkxChunk) : Nat :=
  (chunks.map fun c => c.sector_count).sum

/-- `DmgReader::into_partition_reader` (apple-dmg/lib.rs:123-139): fresh
reader at position 0 with an empty cache; `total_size` sums
`sector_count*512` over the non-Term chunks. -/
def initReader (chunks : List BlkxChunk) : PReader :=
  { chunks := chunks
    pos := 0
    total_size :=
      ((chunks.filter fun c => c.ty ≠ ChunkType.term).map
        fun c => c.sector_count * 512).sum
    cache := []
    cache_order := [] }

/-- `BTreeMap::get` on the association-list cache. -/
def cacheGet : List (Nat × List Nat) → Nat → Option (List Nat)
  | [], _ => none
  | (j, d) :: rest, i => if j = i then some d else cacheGet rest i

/-- `BTreeMap::remove` on the association-list cache (keys are unique). -/
def cacheRemove : List (Nat × List Nat) → Nat → List (Nat × List Nat)
  | [], _ => []
  | (j, d) :: rest, i => if j = i then rest else (j, d) :: cacheRemove rest i

/-- The index-search of `get_chunk_at_pos` (apple-dmg/lib.rs:154-187): the
chunk whose sector range `[sector_number, sector_number + sector_count)`
contains the sector.  The code first probes the last-accessed chunk and
its successor, then binary-searches by sector range; on a table sorted by
disjoint sector ranges (the DMG invariant) every path returns the unique
covering chunk, modelled as the first covering chunk. -/
def findCover (sector : Nat) : List BlkxChunk → Option Nat
  | [] => none
  | c :: rest =>
    if c.sector_number ≤ sector ∧ sector < c.sector_number + c.sector_count
    then some 0
    else (findCover sector rest).map (· + 1)

/-- `get_chunk_at_pos` at byte position `pos`: locate the chunk covering
sector `pos / 512`. -/
def getChunkAtPos (chunks : List BlkxChunk) (pos : Nat) : Option Nat :=
  findCover (pos / 512) chunks

/-- `DmgPartitionReader::load_chunk` (apple-dmg/lib.rs:189-232).  On a
cache hit, only the LRU order moves the index to the back.  On a miss the
chunk is decoded; if the cache already holds `MAX_CACHE_CHUNKS` entries
(and the order list is non-empty) the least-recently-used entry is evicted
first; then the decoded data is inserted and the index pushed to the back.
Returns the new state and whether an eviction happened; `none` models the
decode failure paths (`unimplemented!`, read errors). -/
def loadChunk (inflate : List Nat → List Nat) (disk : Nat → Nat)
    (st : PReader) (idx : Nat) : Option (PReader × Bool) :=
  if (cacheGet st.cache idx).isSome then
    some ({ st with cache_order := (st.cache_order.erase idx) ++ [idx] }, false)
  else
    match st.chunks.get? idx with
    | none => none
    | some c =>
      match decodeChunk inflate disk c with
      | none => none
      | some data =>
        if MAX_CACHE_CHUNKS ≤ st.cache.length then
          match st.cache_order with
          | [] =>
            some ({ st with
              cache := (idx, data) :: st.cache
              cache_order := st.cache_order ++ [idx] }, false)
          | oldest :: restOrder =>
            some ({ st with
              cache := (idx, data) :: cacheRemove st.cache oldest
              cache_order := restOrder ++ [idx] }, true)
        else
          some ({ st with
            cache := (idx, data) :: st.cache
            cache_order := st.cache_order ++ [idx] }, false)

/-- `<DmgPartitionReader as Read>::read` (apple-dmg/lib.rs:235-267).  An
empty buffer or an uncovered position returns 0 bytes; otherwise the
covering chunk is loaded into the cache and bytes are served from it,
clamped to the chunk; a position past the cached data's end inside the
chunk's sector range skips to the next chunk and retries (the Rust
recursion, bounded here by `fuel`; `none` = fuel exhausted, never hit from
`readP`). -/
def readAux (inflate : List Nat → List Nat) (disk : Nat → Nat) :
    Nat → PReader → Nat → Option (List Nat × PReader)
  | 0, _, _ => none
  | fuel + 1, st, buflen =>
    if buflen = 0 then some ([], st)
    else
      match getChunkAtPos st.chunks st.pos with
      | none => some ([], st)
      | some idx =>
        match st.chunks.get? idx with
        | none => none
        | some c =>
          match loadChunk inflate disk st idx with
          | none => none
          | some (st1, _) =>
            match cacheGet st1.cache idx with
            | none => none
            | some chunk_data =>
              let chunk_start := c.sector_number * 512
              let offset_in_chunk := st.pos - chunk_start
              let available := chunk_data.length - offset_in_chunk
              if available = 0 then
                readAux inflate disk fuel
                  { st1 with pos := chunk_start + c.sector_count * 512 } buflen
              else
                let n := min buflen available
                some ((chunk_data.drop offset_in_chunk).take n,
                  { st1 with pos := st.pos + n })

/-- One `read` call: the skip recursion can visit each chunk at most once,
so `chunks.length + 1` fuel is always enough. -/
def readP (inflate : List Nat → List Nat) (disk : Nat → Nat)
    (st : PReader) (buflen : Nat) : Option (List Nat × PReader) :=
  readAux inflate disk (st.chunks.length + 1) st buflen

/-- Reading `want` bytes through repeated `read` calls (stopping early at
a 0-byte read, as `read_exact`-style loops do). -/
def readN (inflate : List Nat → List Nat) (disk : Nat → Nat) :
    Nat → PReader → Nat → Option (List Nat × PReader)
  | 0, _, _ => none
  | fuel + 1, st, want =>
    if want = 0 then some ([], st)
    else
      match readP inflate disk st want with
      | none => none
      | some (bytes, st1) =>
        if bytes.isEmpty then some ([], st1)
        else
          match readN inflate disk fuel st1 (want - bytes.length) with
          | none => none
          | some (more, st2) => some (bytes ++ more, st2)

/-- `std::io::SeekFrom`. -/
inductive SeekFrom where
  | start (s : Nat)
  | current (c : Int)
  | fromEnd (e : Int)
deriving DecidableEq

/-- `u as i64`: reinterpret a u64 value as a signed 64-bit integer. -/
def asI64 (u : Nat) : Int :=
  if u % 2 ^ 64 < 2 ^ 63 then ((u % 2 ^ 64 : Nat) : Int)
  else ((u % 2 ^ 64 : Nat) : Int) - 2 ^ 64

/-- Two's-complement wrap of an i64 computation. -/
def wrapI64 (x : Int) : Int := (x + 2 ^ 63) % 2 ^ 64 - 2 ^ 63

/-- The i64 target position `<DmgPartitionReader as Seek>::seek` computes
(apple-dmg/lib.rs:271-275). -/
def seekTarget (st : PReader) (f : SeekFrom) : Int :=
  match f with
  | .start s => asI64 s
  | .current c => wrapI64 (asI64 st.pos + c)
  | .fromEnd e => wrapI64 (asI64 st.total_size + e)

/-- `<DmgPartitionReader as Seek>::seek` (apple-dmg/lib.rs:269-287):
errors exactly when the computed i64 position is negative, else stores it
(as u64) without any bounds check against the partition size. -/
def seekP (st : PReader) (f : SeekFrom) : Option (Nat × PReader) :=
  if seekTarget st f < 0 then none
  else some ((seekTarget st f).toNat, { st with pos := (seekTarget st f).toNat })

/-- One externally visible reader operation. -/
inductive Op where
  | rd (buflen : Nat)
  | sk (f : SeekFrom)
deriving DecidableEq

/-- Run one operation, keeping the resulting state. -/
def applyOp (inflate : List Nat → List Nat) (disk : Nat → Nat)
    (st : PReader) : Op → Option PReader
  | .rd buflen => (readP inflate disk st buflen).map Prod.snd
  | .sk f => (seekP st f).map Prod.snd

/-- Run a sequence of reads and seeks. -/
def applyOps (inflate : List Nat → List Nat) (disk : Nat → Nat) :
    List Op → PReader → Option PReader
  | [], st => some st
  | op :: rest, st =>
    match applyOp inflate disk st op with
    | none => none
    | some st1 => applyOps inflate disk rest st1

/-- Run a sequence of `load_chunk` calls, recording whether any of them
evicted a cache entry. -/
def loadSeq (inflate : List Nat → List Nat) (disk : Nat → Nat) :
    PReader → List Nat → Option (PReader × Bool)
  | st, [] => some (st, false)
  | st, i :: rest =>
    match loadChunk inflate disk st i with
    | none => none
    | some (st1, ev) =>
      match loadSeq inflate disk st1 rest with
      | none => none
      | some (st2, ev2) => some (st2, ev || ev2)

/-- The cache's structural invariant: unique keys, the LRU order list a
permutation of the keys, and at most `MAX_CACHE_CHUNKS` entries. -/
def CacheInv (st : PReader) : Prop :=
  (st.cache.map Prod.fst).Nodup ∧
  st.cache_order.Perm (st.cache.map Prod.fst) ∧
  st.cache.length ≤ MAX_CACHE_CHUNKS

/-- Keys cached so far all lie below `N` (the partition has `N` distinct
chunks). -/
def BoundedKeys (N : Nat) (st : PReader) : Prop :=
  ∀ i ∈ st.cache.map Prod.fst, i < N

/-- A one-sector Zero chunk used by the cache witnesses. -/
def chunkW : BlkxChunk := ⟨ChunkType.zero, 0, 1, 0, 0⟩

/-- State after one 4-byte read of the partition `[chunkW]`. -/
def stW : PReader :=
  { chunks := [chunkW]
    pos := 4
    total_size := 512
    cache := [(0, List.replicate 512 0)]
    cache_order := [0] }

/-- State after loading chunk 0 twice on the partition `[chunkW]`. -/
def stW2 : PReader :=
  { chunks := [chunkW]
    pos := 0
    total_size := 512
    cache := [(0, List.replicate 512 0)]
    cache_order := [0] }

/-- A chunk table is contiguous from sector `base`: each entry starts at
the sector where the previous one ended — the shape `into_partition_reader`
inherits from a well-formed BLKX table. -/
def ContigFrom (base : Nat) : List BlkxChunk → Prop
  | [] => True
  | c :: rest => c.sector_number = base ∧ ContigFrom (base + c.sector_count) rest

/-- A chunk is of a supported type and decodes to exactly
`sector_count * 512` bytes: Raw's `compressed_length` and Zlib's inflated
length equal the sector span, Comment/Term span no sectors, Zero/Ignore
always synthesize the right count, and the `unimplemented!` types are
excluded. -/
def chunkOK (inflate : List Nat → List Nat) (disk : Nat → Nat)
    (c : BlkxChunk) : Prop :=
  match c.ty with
  | .zero => True
  | .ignore => True
  | .raw => c.compressed_length = c.sector_count * 512
  | .zlib => (inflate (rawBytes disk c)).length = c.sector_count * 512
  | .comment => c.sector_count = 0
  | .term => c.sector_count = 0
  | .adc => False
  | .bzlib => False
  | .lzfse => False

/-- A valid DMG partition: its chunk table is contiguous from sector 0 and
every chunk decodes to its sector span. -/
def Valid (inflate : List Nat → List Nat) (disk : Nat → Nat)
    (chunks : List BlkxChunk) : Prop :=
  ContigFrom 0 chunks ∧ ∀ c ∈ chunks, chunkOK inflate disk c

/-- The byte offset of the chunk boundary after the first `k` chunks. -/
def byteBoundary (chunks : List BlkxChunk) (k : Nat) : Nat :=
  512 * totalSectors (chunks.take k)

/-- Every cached entry holds exactly the decoded bytes of the chunk at its
key. -/
def CacheOK (inflate : List Nat → List Nat) (disk : Nat → Nat)
    (st : PReader) : Prop :=
  ∀ i d, (i, d) ∈ st.cache → ∃ c, st.chunks.get? i = some c ∧
    decodeChunk inflate disk c = some d

/-- Concrete two-chunk table for the C7 witness: one Raw chunk covering
sector 0 and the trailing Term chunk. -/
def chunks7 : List BlkxChunk :=
  [⟨ChunkType.raw, 0, 1, 0, 512⟩, ⟨ChunkType.term, 1, 0, 512, 0⟩]

end Dmg

namespace Sched

lemma markReady_eq_self {p : Process} (h : p.state = .Ready) :
    ({ p with state := .Ready } : Process) = p := by
  cases p
  simp_all

lemma step_cons {c x : Process} {l : List Process} (hc : c.state = .Ready) :
    step ⟨x :: l, some c⟩ = ⟨l ++ [c], some x⟩ := by
  simp [step, scheduleNext, markReady_eq_self hc]

lemma step_orbit (ps : List Process) (c : Process)
    (hall : ∀ p ∈ ps, p.state = .Ready) (hc : c.state = .Ready) :
    ∀ i (hi : i < ps.length),
      (step^[i + 1]) ⟨ps, some c⟩ =
        ⟨ps.drop (i + 1) ++ c :: ps.take i, some (ps.get ⟨i, hi⟩)⟩ := by
  intro i
  induction i with
  | zero =>
    intro hi
    cases ps with
    | nil => simp at hi
    | cons x rest =>
      simp [Function.iterate_one, step_cons hc]
  | succ n ih =>
    intro hi
    have hn : n < ps.length := Nat.lt_of_succ_lt hi
    have hrec := ih hn
    have hiter : (step^[n + 1 + 1]) (⟨ps, some c⟩ : Scheduler) =
        step ((step^[n + 1]) ⟨ps, some c⟩) := by
      rw [Function.iterate_succ_apply']
    rw [hiter, hrec]
    have hdrop : ps.drop (n + 1) = ps.get ⟨n + 1, hi⟩ :: ps.drop (n + 2) := by
      rw [List.drop_eq_get_cons hi]
    have hready : (ps.get ⟨n, hn⟩).state = .Ready := hall _ (ps.get_mem _ _)
    have htake : ps.take (n + 1) = ps.take n ++ [ps.get ⟨n, hn⟩] := by
      rw [List.take_succ, List.getElem?_eq_getElem hn]
      simp
    rw [hdrop, List.cons_append, step_cons hready, htake]
    simp [List.append_assoc]

lemma step_cycle (ps : List Process) (c : Process)
    (hall : ∀ p ∈ ps, p.state = .Ready) (hc : c.state = .Ready) (hne : ps ≠ []) :
    (step^[ps.length + 1]) ⟨ps, some c⟩ = ⟨ps, some c⟩ := by
  obtain ⟨k, hk⟩ : ∃ k, ps.length = k + 1 := by
    cases ps with
    | nil => exact absurd rfl hne
    | cons x l => exact ⟨l.length, rfl⟩
  have hklt : k < ps.length := by omega
  have horb := step_orbit ps c hall hc k hklt
  have hsplit : (step^[ps.length + 1]) (⟨ps, some c⟩ : Scheduler) =
      step ((step^[k + 1]) ⟨ps, some c⟩) := by
    rw [hk, Function.iterate_succ_apply']
  rw [hsplit, horb]
  have hdropk : ps.drop (k + 1) = [] := by
    rw [← hk, List.drop_length]
  rw [hdropk, List.nil_append, step_cons (hall _ (ps.get_mem _ _))]
  have htk : ps.take (k + 1) = ps.take k ++ [ps.get ⟨k, hklt⟩] := by
    rw [List.take_succ, List.getElem?_eq_getElem hklt]
    simp
  have htk2 : ps.take (k + 1) = ps := by
    rw [← hk]
    exact List.take_length ps
  rw [← htk, htk2]

/-- C3 (counterexample): on a first-ever schedule (no current process) with
two queued processes, `schedule_next` returns `Some` previous-context
pointer — it points at the unrelated process now at the back of the queue —
whereas the claim demands `None` whenever no current process existed. -/
theorem scheduleNext_first_schedule_prev_not_none :
    ((Sched.scheduleNext ⟨[⟨1, .Ready, 11⟩, ⟨2, .Ready, 12⟩], none⟩).1.map Prod.fst)
      = some (some ⟨2, .Ready, 12⟩) ∧
    ((Sched.scheduleNext ⟨[⟨1, .Ready, 11⟩, ⟨2, .Ready, 12⟩], none⟩).1.map Prod.fst)
      ≠ some none := by
  decide

/-- C3 (amended): `schedule_next` returns `none` with the state unchanged
exactly when the ready queue is empty.  Otherwise it pops the front as
`next`, marks the current process (if any) Ready and pushes it to the back,
promotes `next` to current, and returns the back of the resulting queue as
the previous-context pointer: that is the previous current process whenever
one existed; when no current process existed it is `none` only if the
popped process was the sole queued one, and otherwise points at the process
now at the back of the queue. -/
theorem scheduleNext_spec (s : Sched.Scheduler) :
    (s.processes = [] → Sched.scheduleNext s = (none, s)) ∧
    (∀ next rest prev, s.processes = next :: rest → s.current_process = some prev →
        Sched.scheduleNext s =
          (some ((rest ++ [{ prev with state := .Ready }]).getLast?, next),
            ⟨rest ++ [{ prev with state := .Ready }], some next⟩) ∧
        (rest ++ [{ prev with state := .Ready }]).getLast? =
          some { prev with state := .Ready }) ∧
    (∀ next rest, s.processes = next :: rest → s.current_process = none →
        Sched.scheduleNext s = (some (rest.getLast?, next), ⟨rest, some next⟩)) := by
  obtain ⟨ps, cur⟩ := s
  refine ⟨?_, ?_, ?_⟩
  · intro h
    subst h
    rfl
  · intro next rest prev hp hcur
    dsimp at hp hcur
    subst hp
    subst hcur
    exact ⟨rfl, List.getLast?_concat _⟩
  · intro next rest hp hcur
    dsimp at hp hcur
    subst hp
    subst hcur
    rfl

/-- C3 (witness): a second yield with one ready and one current process
returns the previous current (now Ready, at the back) and the new
current. -/
theorem scheduleNext_spec_witness :
    Sched.scheduleNext ⟨[⟨2, .Ready, 22⟩], some ⟨1, .Running, 21⟩⟩ =
      (some (some ⟨1, .Ready, 21⟩, ⟨2, .Ready, 22⟩),
        ⟨[⟨1, .Ready, 21⟩], some ⟨2, .Ready, 22⟩⟩) := by
  have h := (scheduleNext_spec ⟨[⟨2, .Ready, 22⟩], some ⟨1, .Running, 21⟩⟩).2.1
      ⟨2, .Ready, 22⟩ [] ⟨1, .Running, 21⟩ rfl rfl
  simpa using h.1

/-- C4 (counterexample): with k = 2 ready processes and one current, after
k = 2 successive yields the current process is the second ready process —
neither the first ready process nor the original current — so "after k
successive yields ... the first is current again" fails. -/
theorem roundRobin_k_yields_counterexample :
    (Sched.step (Sched.step ⟨[⟨2, .Ready, 12⟩, ⟨3, .Ready, 13⟩],
        some ⟨1, .Ready, 11⟩⟩)).current_process = some ⟨3, .Ready, 13⟩ ∧
    (⟨3, .Ready, 13⟩ : Sched.Process) ≠ ⟨2, .Ready, 12⟩ ∧
    (⟨3, .Ready, 13⟩ : Sched.Process) ≠ ⟨1, .Ready, 11⟩ := by
  decide

/-- C4 (amended): scheduling is FIFO round-robin.  With k ready processes
and one current process (all Ready) and no spawn or exit, the i-th of the
first k successive yields makes the i-th ready process current — so each of
the k ready processes runs exactly once, in queue order — and after k + 1
successive yields the scheduler state is exactly the initial state again:
the original current process is current once more. -/
theorem roundRobin_cycle (ps : List Sched.Process) (c : Sched.Process)
    (hall : ∀ p ∈ ps, p.state = .Ready) (hc : c.state = .Ready) :
    (∀ i (hi : i < ps.length),
        ((Sched.step^[i + 1]) ⟨ps, some c⟩).current_process = some (ps.get ⟨i, hi⟩)) ∧
    (ps ≠ [] → (Sched.step^[ps.length + 1]) ⟨ps, some c⟩ = ⟨ps, some c⟩) := by
  refine ⟨?_, ?_⟩
  · intro i hi
    rw [step_orbit ps c hall hc i hi]
  · intro hne
    exact step_cycle ps c hall hc hne

/-- C4 (witness): two ready processes and one current; the first yield runs
the first ready process, and three yields restore the initial state. -/
theorem roundRobin_cycle_witness :
    ((Sched.step^[1]) ⟨[⟨2, .Ready, 12⟩, ⟨3, .Ready, 13⟩],
        some ⟨1, .Ready, 11⟩⟩).current_process = some ⟨2, .Ready, 12⟩ ∧
    (Sched.step^[3]) ⟨[⟨2, .Ready, 12⟩, ⟨3, .Ready, 13⟩], some ⟨1, .Ready, 11⟩⟩ =
      ⟨[⟨2, .Ready, 12⟩, ⟨3, .Ready, 13⟩], some ⟨1, .Ready, 11⟩⟩ := by
  refine ⟨?_, ?_⟩
  · exact (roundRobin_cycle [⟨2, .Ready, 12⟩, ⟨3, .Ready, 13⟩] ⟨1, .Ready, 11⟩
      (by decide) (by decide)).1 0 (by decide)
  · exact (roundRobin_cycle [⟨2, .Ready, 12⟩, ⟨3, .Ready, 13⟩] ⟨1, .Ready, 11⟩
      (by decide) (by decide)).2 (by decide)

end Sched

namespace Syscall

/-- C5 (code bug): the AArch64 getpid syscall (x8 = 4) writes the constant
1 into x0 even when the currently running process has pid 2, so two
cooperative processes observe the pid sequence 1,1,1,1 instead of the
specified 1,2,1,2. -/
theorem sysGetpid_ignores_current_process :
    (handleA64Syscall 99 ⟨fun i => if i = 8 then 4 else 0, 0, 0x3C0, 0⟩).x 0 = 1 ∧
    (⟨[⟨1, .Ready, 11⟩], some ⟨2, .Running, 12⟩⟩ :
        Sched.Scheduler).current_process.map Sched.Process.pid = some 2 ∧
    (1 : Nat) ≠ 2 := by
  refine ⟨rfl, rfl, by decide⟩

lemma findFreeFd_lowest (files : List (Option Nat)) (fd : Nat)
    (h : findFreeFd files = some fd) :
    fd < files.length ∧ files.getD fd (some 0) = none ∧
      ∀ j, j < fd → (files.getD j none).isSome = true := by
  induction files generalizing fd with
  | nil => simp [findFreeFd] at h
  | cons a l ih =>
    rw [findFreeFd] at h
    by_cases ha : a.isNone
    · rw [if_pos ha] at h
      cases h
      cases a with
      | none => exact ⟨Nat.succ_pos _, rfl, fun j hj => by omega⟩
      | some v => simp at ha
    · rw [if_neg ha] at h
      cases hf' : findFreeFd l with
      | none =>
        rw [hf'] at h
        simp at h
      | some fd' =>
        rw [hf'] at h
        have hfd : fd' + 1 = fd := Option.some.inj h
        subst hfd
        obtain ⟨h1, h2, h3⟩ := ih fd' hf'
        refine ⟨by simpa using Nat.succ_lt_succ h1, by simpa using h2, ?_⟩
        intro j hj
        cases j with
        | zero =>
          cases a with
          | none => simp at ha
          | some v => simp
        | succ j' =>
          have := h3 j' (by omega)
          simpa using this

lemma findFreeFd_none (files : List (Option Nat))
    (h : ∀ slot ∈ files, slot.isSome = true) : findFreeFd files = none := by
  induction files with
  | nil => rfl
  | cons a l ih =>
    rw [findFreeFd]
    have ha := h a (by simp)
    rw [if_neg (by simp [Option.isNone_iff_eq_none]; intro hn; rw [hn] at ha; simp at ha)]
    rw [ih fun slot hs => h slot (by simp [hs])]
    rfl

lemma clearCarry_testBit (f : TrapFrame) :
    (clearCarry f).spsr.testBit 29 = false := by
  show (f.spsr &&& (2 ^ 64 - 1 - carryBit)).testBit 29 = false
  have hmask : (2 ^ 64 - 1 - carryBit).testBit 29 = false := by decide
  rw [Nat.testBit_land, hmask, Bool.and_false]

lemma setCarry_testBit (f : TrapFrame) :
    (setCarry f).spsr.testBit 29 = true := by
  show (f.spsr ||| carryBit).testBit 29 = true
  have hmask : carryBit.testBit 29 = true := by decide
  rw [Nat.testBit_lor, hmask, Bool.or_true]

/-- C9: the AArch32 `open` syscall returns the lowest free descriptor index
with the SPSR carry bit (bit 29) cleared when the path exists and a slot is
free; returns ENOENT = 2 with the carry bit set when the VFS lookup fails;
and returns EMFILE = 24 with the carry bit set when all 32 descriptor slots
are occupied — in the last two cases the descriptor table is unchanged. -/
theorem sysOpen_spec (vfsOpen : String → Option Nat) (path : String)
    (files : List (Option Nat)) (f : TrapFrame) :
    (∀ h fd, vfsOpen path = some h → findFreeFd files = some fd →
        (sysOpen vfsOpen path files f).1 = files.set fd (some h) ∧
        (sysOpen vfsOpen path files f).2.x 0 = fd ∧
        (sysOpen vfsOpen path files f).2.spsr.testBit 29 = false ∧
        fd < files.length ∧ files.getD fd (some 0) = none ∧
        ∀ j, j < fd → (files.getD j none).isSome = true) ∧
    (vfsOpen path = none →
        (sysOpen vfsOpen path files f).1 = files ∧
        (sysOpen vfsOpen path files f).2.x 0 = ENOENT ∧
        (sysOpen vfsOpen path files f).2.spsr.testBit 29 = true) ∧
    (∀ h, vfsOpen path = some h → files.length = 32 →
        (∀ slot ∈ files, slot.isSome = true) →
        (sysOpen vfsOpen path files f).1 = files ∧
        (sysOpen vfsOpen path files f).2.x 0 = EMFILE ∧
        (sysOpen vfsOpen path files f).2.spsr.testBit 29 = true) := by
  refine ⟨?_, ?_, ?_⟩
  · intro h fd hv hfd
    obtain ⟨h1, h2, h3⟩ := findFreeFd_lowest files fd hfd
    have hres : sysOpen vfsOpen path files f =
        (files.set fd (some h), clearCarry (setX f 0 fd)) := by
      simp [sysOpen, hv, hfd]
    rw [hres]
    exact ⟨rfl, by simp [clearCarry, setX], clearCarry_testBit _, h1, h2, h3⟩
  · intro hv
    have hres : sysOpen vfsOpen path files f = (files, setCarry (setX f 0 ENOENT)) := by
      simp [sysOpen, hv]
    rw [hres]
    exact ⟨rfl, by simp [setCarry, setX], setCarry_testBit _⟩
  · intro h hv _ hall
    have hres : sysOpen vfsOpen path files f = (files, setCarry (setX f 0 EMFILE)) := by
      simp [sysOpen, hv, findFreeFd_none files hall]
    rw [hres]
    exact ⟨rfl, by simp [setCarry, setX], setCarry_testBit _⟩

/-- C9 (witness): concrete runs of the three arms — a successful open into
the lowest free slot (index 1), a failed lookup, and a full 32-slot
table. -/
theorem sysOpen_spec_witness :
    ((sysOpen (fun p => if p = "/f" then some 7 else none) "/f"
        [some 5, none, none] ⟨fun _ => 0, 0, 0, 0⟩).1 =
      [some 5, some 7, none] ∧
      (sysOpen (fun p => if p = "/f" then some 7 else none) "/f"
        [some 5, none, none] ⟨fun _ => 0, 0, 0, 0⟩).2.x 0 = 1) ∧
    ((sysOpen (fun p => if p = "/f" then some 7 else none) "/missing"
        [some 5, none, none] ⟨fun _ => 0, 0, 0, 0⟩).2.x 0 = ENOENT) ∧
    ((sysOpen (fun p => if p = "/f" then some 7 else none) "/f"
        (List.replicate 32 (some 9)) ⟨fun _ => 0, 0, 0, 0⟩).2.x 0 = EMFILE) := by
  refine ⟨?_, ?_, ?_⟩
  · have h := (sysOpen_spec (fun p => if p = "/f" then some 7 else none) "/f"
        [some 5, none, none] ⟨fun _ => 0, 0, 0, 0⟩).1 7 1 (by decide) (by decide)
    exact ⟨h.1, h.2.1⟩
  · exact ((sysOpen_spec (fun p => if p = "/f" then some 7 else none) "/missing"
        [some 5, none, none] ⟨fun _ => 0, 0, 0, 0⟩).2.1 (by decide)).2.1
  · exact ((sysOpen_spec (fun p => if p = "/f" then some 7 else none) "/f"
        (List.replicate 32 (some 9)) ⟨fun _ => 0, 0, 0, 0⟩).2.2 7 (by decide)
        (by decide) (by decide)).2.1

end Syscall

namespace Hfs

/-- C1 (counterexample): resolving `/a/b` when `(2, "a")` is a File record
— a File met at a non-final component — returns `KeyNotFound`, not the
claimed `InvalidRecordType`. -/
theorem getPathRecord_file_mid_path_counterexample :
    getPathRecordImpl
        (fun k => if k = ⟨2, ['a'].map Char.toNat⟩ then
            .ok ⟨⟨2, ['a'].map Char.toNat⟩, .file 7⟩
          else .error .keyNotFound)
        (fun cs => cs.map Char.toNat) "/a/b" = .error .keyNotFound ∧
    (Except.error HError.keyNotFound : Except HError CatalogRecordM) ≠
      .error .invalidRecordType := by
  exact ⟨rfl, by decide⟩

/-- C1 (amended): in the resolution loop, a File record encountered at a
component that is not the last part yields `KeyNotFound` (the
`InvalidRecordType` error is reserved for thread records met during
resolution); a File at the last component returns exactly that File
record; and for a non-empty part list `get_path_record_impl` is that loop
started at the root folder id 2. -/
theorem getPathRecord_file_spec
    (lookup : CatalogKeyM → Except HError CatalogRecordM)
    (encode : List Char → List Nat) :
    (∀ folderId part rest cur r fid, rest ≠ [] →
        lookup ⟨folderId, encode part⟩ = .ok r → r.body = .file fid →
        resolveParts lookup encode folderId cur (part :: rest) =
          .error .keyNotFound) ∧
    (∀ folderId part cur r fid,
        lookup ⟨folderId, encode part⟩ = .ok r → r.body = .file fid →
        resolveParts lookup encode folderId cur [part] = .ok r) ∧
    (∀ filename : String, ¬(splitParts filename).isEmpty →
        getPathRecordImpl lookup encode filename =
          resolveParts lookup encode 2 none (splitParts filename)) := by
  refine ⟨?_, ?_, ?_⟩
  · intro folderId part rest cur r fid hrest hl hb
    rw [resolveParts, hl]
    dsimp only
    rw [hb]
    simp [List.isEmpty_iff, hrest]
  · intro folderId part cur r fid hl hb
    rw [resolveParts, hl]
    dsimp only
    rw [hb]
    simp [resolveParts]
  · intro filename hne
    rw [getPathRecordImpl]
    simp [hne]

/-- C1 (witness): resolving `/a/b` in `tinyCatalog` — the path ends at the
File record for `b` — returns that File record. -/
theorem getPathRecord_file_spec_witness :
    getPathRecordImpl tinyCatalog tinyEncode "/a/b" =
      .ok ⟨⟨5, ['b'].map Char.toNat⟩, .file 7⟩ := by
  have hlink := (getPathRecord_file_spec tinyCatalog tinyEncode).2.2 "/a/b" (by decide)
  have hlast := (getPathRecord_file_spec tinyCatalog tinyEncode).2.1 5 ['b']
      (some ⟨⟨2, ['a'].map Char.toNat⟩, .folder 5⟩)
      ⟨⟨5, ['b'].map Char.toNat⟩, .file 7⟩ 7 (by decide) rfl
  rw [hlink]
  have hsplit : splitParts "/a/b" = [['a'], ['b']] := by decide
  rw [hsplit, resolveParts]
  have hstep : tinyCatalog ⟨2, tinyEncode ['a']⟩ =
      .ok ⟨⟨2, ['a'].map Char.toNat⟩, .folder 5⟩ := by decide
  rw [hstep]
  dsimp only
  exact hlast

/-- C2 (code bug): both parsers can panic on malformed input.  `Node::load`
panics on a node whose record offsets are out of order — every offset
passes the `[14, last_offset_pos]` validation, but the record loop then
evaluates `&data[20..16]`, a slice whose start exceeds its end.
`BTree::open` panics on a stream whose claimed node size is 0:
`full_buffer[..512]` indexes past the end of the zero-length buffer. -/
theorem nodeLoad_btreeOpen_panic :
    nodeLoad stubKeyImport stubRecImport badOffsetsNode = .panic ∧
    btreeOpen stubKeyImport stubRecImport (List.replicate 512 0) = .panic := by
  constructor
  · decide
  · decide

end Hfs

namespace BT

open Hfs (PRes HError)

section Lemmas

variable {K R : Type} [LinearOrder K]

lemma entriesOf_append (a b : List (LeafRec K R)) :
    entriesOf (a ++ b) = entriesOf a ++ entriesOf b := by
  simp [entriesOf]

lemma entriesOf_cons (l : LeafRec K R) (ls : List (LeafRec K R)) :
    entriesOf (l :: ls) = l.2 ++ entriesOf ls := by
  simp [entriesOf]

lemma entriesOf_nil : entriesOf ([] : List (LeafRec K R)) = [] := rfl

lemma keysOf_append (a b : List (LeafRec K R)) :
    keysOf (a ++ b) = keysOf a ++ keysOf b := by
  simp [keysOf, entriesOf_append]

lemma keysOf_cons (l : LeafRec K R) (ls : List (LeafRec K R)) :
    keysOf (l :: ls) = l.2.map Prod.fst ++ keysOf ls := by
  simp [keysOf, entriesOf_cons]

lemma entriesOf_join (L : List (List (LeafRec K R))) :
    entriesOf L.flatten = (L.map entriesOf).flatten := by
  induction L with
  | nil => rfl
  | cons a l ih => simp [entriesOf_append, ih]

lemma pairwise_join_cross {α : Type} {Rel : α → α → Prop} :
    ∀ (L : List (List α)), L.flatten.Pairwise Rel →
    ∀ i j (hi : i < L.length) (hj : j < L.length), i < j →
    ∀ a ∈ L.get ⟨i, hi⟩, ∀ b ∈ L.get ⟨j, hj⟩, Rel a b := by
  intro L
  induction L with
  | nil => intro _ i j hi; simp at hi
  | cons hd tl ih =>
    intro hp i j hi hj hij a ha b hb
    have hp' : (hd ++ tl.flatten).Pairwise Rel := hp
    obtain ⟨hhd, htl, hcross⟩ := List.pairwise_append.mp hp'
    cases i with
    | zero =>
      cases j with
      | zero => omega
      | succ j' =>
        refine hcross a ha b (List.mem_flatten.mpr ⟨tl.get ⟨j', by simpa using hj⟩, ?_, hb⟩)
        exact tl.get_mem _ _
    | succ i' =>
      cases j with
      | zero => omega
      | succ j' =>
        exact ih htl i' j' (by simpa using hi) (by simpa using hj) (by omega) a ha b hb

lemma leafScan_mem {l : List (K × R)} (hsorted : (l.map Prod.fst).Pairwise (· < ·))
    {k : K} {r : R} (hmem : (k, r) ∈ l) : leafScan k l = some (.ok r) := by
  induction l with
  | nil => simp at hmem
  | cons p t ih =>
    obtain ⟨k0, r0⟩ := p
    rw [List.map_cons, List.pairwise_cons] at hsorted
    rcases List.mem_cons.mp hmem with heq | h
    · obtain ⟨h1, h2⟩ := Prod.mk.inj heq
      subst h1
      subst h2
      rw [leafScan, if_neg (lt_irrefl k), if_pos rfl]
    · have hk0 : k0 < k := hsorted.1 k (by simpa using List.mem_map_of_mem Prod.fst h)
      rw [leafScan, if_neg (by exact fun hc => absurd (hk0.trans hc) (lt_irrefl k0)),
        if_neg (by exact fun hc => absurd (hc ▸ hk0) (lt_irrefl k0))]
      exact ih hsorted.2 h

lemma leafScan_all_lt {l : List (K × R)} {k : K} (h : ∀ p ∈ l, p.1 < k) :
    leafScan k l = none := by
  induction l with
  | nil => rfl
  | cons p t ih =>
    obtain ⟨k0, r0⟩ := p
    have hk0 : k0 < k := h (k0, r0) (by simp)
    rw [leafScan, if_neg (by exact fun hc => absurd (hk0.trans hc) (lt_irrefl k0)),
      if_neg (by exact fun hc => absurd (hc ▸ hk0) (lt_irrefl k0))]
    exact ih fun p hp => h p (by simp [hp])

lemma leafScan_no_eq {l : List (K × R)} {k : K} (h : ∀ p ∈ l, p.1 ≠ k) :
    leafScan k l = none ∨ leafScan k l = some (.err .keyNotFound) := by
  induction l with
  | nil => exact Or.inl rfl
  | cons p t ih =>
    obtain ⟨k0, r0⟩ := p
    have hne : k0 ≠ k := h (k0, r0) (by simp)
    by_cases hlt : k < k0
    · exact Or.inr (by rw [leafScan, if_pos hlt])
    · rw [leafScan, if_neg hlt, if_neg (fun hc => hne hc.symm)]
      exact ih fun p hp => h p (by simp [hp])

lemma leafScan_exact {l : List (K × R)} {k : K} {r : R}
    (h : leafScan k l = some (.ok r)) : (k, r) ∈ l := by
  induction l with
  | nil => simp [leafScan] at h
  | cons p t ih =>
    obtain ⟨k0, r0⟩ := p
    rw [leafScan] at h
    by_cases hlt : k < k0
    · rw [if_pos hlt] at h
      simp at h
    · rw [if_neg hlt] at h
      by_cases heq : k = k0
      · rw [if_pos heq] at h
        obtain rfl : r0 = r := by simpa using h
        simp [heq]
      · rw [if_neg heq] at h
        simp [ih h]

lemma chooseChild_spec (k : K) :
    ∀ (first : K × Nat) (rest : List (K × Nat)),
    (((first :: rest).map Prod.fst).Pairwise (· < ·)) → first.1 ≤ k →
    ∃ (i : Nat) (hi : i < (first :: rest).length),
      chooseChild k first rest = (first :: rest).get ⟨i, hi⟩ ∧
      ((first :: rest).get ⟨i, hi⟩).1 ≤ k ∧
      ∀ m (hm : m < (first :: rest).length), i < m →
        k < ((first :: rest).get ⟨m, hm⟩).1 := by
  intro first rest
  induction rest generalizing first with
  | nil =>
    intro _ hfirst
    exact ⟨0, by simp, rfl, hfirst, fun m hm him => by simp at hm; omega⟩
  | cons r t ih =>
    intro hsorted hfirst
    rw [List.map_cons, List.pairwise_cons] at hsorted
    by_cases hlt : k < r.1
    · refine ⟨0, by simp, ?_, hfirst, ?_⟩
      · rw [chooseChild, if_pos hlt]
        rfl
      · intro m hm him
        cases m with
        | zero => omega
        | succ m' =>
          cases m' with
          | zero => exact hlt
          | succ m'' =>
            have hm'' : m'' < t.length := by simpa using hm
            have h2 : (r.1 :: t.map Prod.fst).Pairwise (· < ·) := by
              simpa using hsorted.2
            exact hlt.trans ((List.pairwise_cons.mp h2).1 _
              (List.mem_map_of_mem Prod.fst (t.get_mem m'' hm'')))
    · have hr : r.1 ≤ k := le_of_not_lt hlt
      obtain ⟨i, hi, heq, hle, hgt⟩ := ih r hsorted.2 hr
      refine ⟨i + 1, by simpa using hi, ?_, by simpa using hle, ?_⟩
      · rw [chooseChild, if_neg hlt]
        simpa using heq
      · intro m hm him
        cases m with
        | zero => omega
        | succ m' => exact hgt m' (by simpa using hm) (by omega)

lemma sublist_join_mono {α : Type} {L1 L2 : List (List α)} (h : L1.Sublist L2) :
    L1.flatten.Sublist L2.flatten := by
  induction h with
  | slnil => exact List.Sublist.refl _
  | cons a h ih => exact ih.trans (List.sublist_append_right a _)
  | cons₂ a h ih => exact List.Sublist.append (List.Sublist.refl a) ih

lemma entriesOf_sublist {lvs' lvs : List (LeafRec K R)} (h : lvs'.Sublist lvs) :
    (entriesOf lvs').Sublist (entriesOf lvs) :=
  sublist_join_mono (h.map Prod.snd)

lemma keysOf_sublist {lvs' lvs : List (LeafRec K R)} (h : lvs'.Sublist lvs) :
    (keysOf lvs').Sublist (keysOf lvs) :=
  (entriesOf_sublist h).map Prod.fst

lemma getRecordNode_unfold_leaf (store : Nat → Option (BNode K R)) (k : K)
    (fuel nid : Nat) {entries : List (K × R)} {fl : Nat}
    (h : store nid = some (.leaf entries fl)) :
    getRecordNode store k (fuel + 1) nid =
      match leafScan k entries with
      | some res => some res
      | none =>
        if fl = 0 then some (.err .keyNotFound)
        else
          match store fl with
          | some (.leaf _ _) => getRecordNode store k fuel fl
          | some _ => some (.err .badNode)
          | none => some (.err .invalidData) := by
  simp only [getRecordNode, h]

lemma getRecordNode_unfold_index (store : Nat → Option (BNode K R)) (k : K)
    (fuel nid : Nat) {recs : List (K × Nat)} {first : K × Nat}
    {rest : List (K × Nat)} (h : store nid = some (.index recs))
    (hr : recs = first :: rest) (hk : ¬ k < first.1) :
    getRecordNode store k (fuel + 1) nid =
      getRecordNode store k fuel (chooseChild k first rest).2 := by
  subst hr
  simp only [getRecordNode, h, if_neg hk]

lemma chainScan_found (store : Nat → Option (BNode K R)) (lvs : List (LeafRec K R))
    (hchain : ChainLinked store lvs) (hz : ∀ l ∈ lvs, l.1 ≠ 0)
    (hsorted : (keysOf lvs).Pairwise (· < ·)) (k : K) (r : R) :
    ∀ fuel j (hj : j < lvs.length), lvs.length - j ≤ fuel →
      (k, r) ∈ entriesOf (lvs.drop j) →
      getRecordNode store k fuel (lvs.get ⟨j, hj⟩).1 = some (.ok r) := by
  intro fuel
  induction fuel with
  | zero =>
    intro j hj hf
    omega
  | succ f ih =>
    intro j hj hf hmem
    have hstore : store (lvs.get ⟨j, hj⟩).1 =
        some (.leaf (lvs.get ⟨j, hj⟩).2 (nextId lvs j)) := hchain j hj
    rw [getRecordNode_unfold_leaf store k f _ hstore]
    have hdropj : lvs.drop j = lvs.get ⟨j, hj⟩ :: lvs.drop (j + 1) := by
      rw [List.drop_eq_getElem_cons hj]
      rfl
    rw [hdropj, entriesOf_cons] at hmem
    have hsuffix : (keysOf (lvs.drop j)).Pairwise (· < ·) :=
      List.Pairwise.sublist (keysOf_sublist (List.drop_sublist j lvs)) hsorted
    have hsplit : keysOf (lvs.drop j) =
        (lvs.get ⟨j, hj⟩).2.map Prod.fst ++ keysOf (lvs.drop (j + 1)) := by
      rw [hdropj, keysOf_cons]
    rcases List.mem_append.mp hmem with hin | hin
    · have hleafsorted : ((lvs.get ⟨j, hj⟩).2.map Prod.fst).Pairwise (· < ·) := by
        refine List.Pairwise.sublist ?_ hsuffix
        rw [hsplit]
        exact List.sublist_append_left _ _
      rw [leafScan_mem hleafsorted hin]
    · have hcross := (List.pairwise_append.mp (hsplit ▸ hsuffix)).2.2
      have hklt : ∀ p ∈ (lvs.get ⟨j, hj⟩).2, p.1 < k := by
        intro p hp
        exact hcross p.1 (List.mem_map_of_mem Prod.fst hp) k
          (by simpa [keysOf] using List.mem_map_of_mem Prod.fst hin)
      rw [leafScan_all_lt hklt]
      have hjj : j + 1 < lvs.length := by
        by_contra hcon
        rw [List.drop_eq_nil_of_le (by omega)] at hin
        simp [entriesOf_nil] at hin
      have hnext : nextId lvs j = (lvs.get ⟨j + 1, hjj⟩).1 := by
        rw [nextId, List.get?_eq_get hjj]
      have hfl : nextId lvs j ≠ 0 := by
        rw [hnext]
        exact hz _ (lvs.get_mem _ _)
      rw [if_neg hfl, hnext, hchain (j + 1) hjj]
      exact ih (j + 1) hjj (by omega) hin

lemma chainScan_notfound (store : Nat → Option (BNode K R)) (lvs : List (LeafRec K R))
    (hchain : ChainLinked store lvs) (hz : ∀ l ∈ lvs, l.1 ≠ 0) (k : K) :
    ∀ fuel j (hj : j < lvs.length), lvs.length - j ≤ fuel →
      (∀ p ∈ entriesOf (lvs.drop j), p.1 ≠ k) →
      getRecordNode store k fuel (lvs.get ⟨j, hj⟩).1 = some (.err .keyNotFound) := by
  intro fuel
  induction fuel with
  | zero =>
    intro j hj hf
    omega
  | succ f ih =>
    intro j hj hf hne
    have hstore : store (lvs.get ⟨j, hj⟩).1 =
        some (.leaf (lvs.get ⟨j, hj⟩).2 (nextId lvs j)) := hchain j hj
    rw [getRecordNode_unfold_leaf store k f _ hstore]
    have hdropj : lvs.drop j = lvs.get ⟨j, hj⟩ :: lvs.drop (j + 1) := by
      rw [List.drop_eq_getElem_cons hj]
      rfl
    rw [hdropj, entriesOf_cons] at hne
    have hneleaf : ∀ p ∈ (lvs.get ⟨j, hj⟩).2, p.1 ≠ k := fun p hp =>
      hne p (List.mem_append.mpr (Or.inl hp))
    rcases leafScan_no_eq hneleaf with hscan | hscan
    · rw [hscan]
      by_cases hjj : j + 1 < lvs.length
      · have hnext : nextId lvs j = (lvs.get ⟨j + 1, hjj⟩).1 := by
          rw [nextId, List.get?_eq_get hjj]
        have hfl : nextId lvs j ≠ 0 := by
          rw [hnext]
          exact hz _ (lvs.get_mem _ _)
        rw [if_neg hfl, hnext, hchain (j + 1) hjj]
        exact ih (j + 1) hjj (by omega) fun p hp =>
          hne p (List.mem_append.mpr (Or.inr hp))
      · have hfl : nextId lvs j = 0 := by
          rw [nextId, List.get?_eq_none.mpr (by omega)]
        rw [if_pos hfl]
    · rw [hscan]

lemma keysOf_join (L : List (List (LeafRec K R))) :
    keysOf L.flatten = (L.map keysOf).flatten := by
  rw [keysOf, entriesOf_join, List.map_flatten, List.map_map]
  rfl

lemma head?_keysOf (b : List (LeafRec K R)) :
    (keysOf b).head? = ((entriesOf b).head?).map Prod.fst := by
  rw [keysOf, List.head?_map]

lemma head_le_of_sorted {l : List K} (hs : l.Pairwise (· < ·)) {a b : K}
    (ha : l.head? = some a) (hb : b ∈ l) : a ≤ b := by
  cases l with
  | nil => simp at ha
  | cons x t =>
    have hxa : x = a := by simpa using ha
    rcases List.mem_cons.mp hb with hbx | hb
    · rw [← hxa, hbx]
    · exact le_of_lt (hxa ▸ (List.pairwise_cons.mp hs).1 b hb)

lemma head?_append_left {α : Type} (l1 l2 : List α) {a : α}
    (h : l1.head? = some a) : (l1 ++ l2).head? = some a := by
  cases l1 with
  | nil => simp at h
  | cons x t => simpa using h

lemma descend {store : Nat → Option (BNode K R)} {h nid : Nat}
    {lvs : List (LeafRec K R)} (hsub : Sub store h nid lvs) :
    ∀ k : K, (keysOf lvs).Pairwise (· < ·) →
    (∃ k0, (keysOf lvs).head? = some k0 ∧ k0 ≤ k) →
    ∃ (pre : List (LeafRec K R)) (leafJ : LeafRec K R) (post : List (LeafRec K R)),
      lvs = pre ++ leafJ :: post ∧
      (∀ fuel, getRecordNode store k (fuel + h) nid =
        getRecordNode store k fuel leafJ.1) ∧
      (∃ p, leafJ.2.head? = some p ∧ p.1 ≤ k) ∧
      (∀ l ∈ post, ∀ p, l.2.head? = some p → k < p.1) := by
  induction hsub with
  | leaf nid entries fl hstore =>
    intro k hsorted hk
    obtain ⟨k0, hk0, hk0le⟩ := hk
    have hke : keysOf [(nid, entries)] = entries.map Prod.fst := by
      simp [keysOf, entriesOf]
    rw [hke, List.head?_map] at hk0
    obtain ⟨p, hp, hpk⟩ := Option.map_eq_some'.mp hk0
    have hple : p.1 ≤ k := by
      rw [hpk]
      exact hk0le
    exact ⟨[], (nid, entries), [], by simp, fun fuel => rfl, ⟨p, hp, hple⟩, by simp⟩
  | index h nid recs lvsList hstore hne hlen hsubc hheads ih =>
    intro k hsorted hk
    obtain ⟨first, rest, hrecs⟩ := List.exists_cons_of_ne_nil hne
    subst hrecs
    -- keys of the whole subtree, blockwise
    have hkj : keysOf lvsList.flatten = (lvsList.map keysOf).flatten := keysOf_join lvsList
    -- each block's key list starts with its index record's key
    have hbhead : ∀ i (hi : i < (first :: rest).length) (hj : i < lvsList.length),
        (keysOf (lvsList.get ⟨i, hj⟩)).head? = some ((first :: rest).get ⟨i, hi⟩).1 := by
      intro i hi hj
      rw [head?_keysOf]
      exact hheads i hi hj
    -- each block's key list is sorted
    have hbsorted : ∀ (i : Nat) (hi : i < lvsList.length),
        (keysOf (lvsList.get ⟨i, hi⟩)).Pairwise (· < ·) := by
      intro i hi
      refine List.Pairwise.sublist ?_ hsorted
      rw [hkj]
      refine List.sublist_flatten_of_mem ?_
      exact List.mem_map_of_mem keysOf (lvsList.get_mem _ _)
    -- the index record keys are strictly sorted
    have hrecs_sorted : ((first :: rest).map Prod.fst).Pairwise (· < ·) := by
      rw [List.pairwise_map, List.pairwise_iff_get]
      intro i j hij
      have hil : (i : Nat) < lvsList.length := hlen ▸ i.isLt
      have hjl : (j : Nat) < lvsList.length := hlen ▸ j.isLt
      have hki := hbhead i i.isLt hil
      have hkj' := hbhead j j.isLt hjl
      have hmemi : ((first :: rest).get ⟨i, i.isLt⟩).1 ∈ keysOf (lvsList.get ⟨i, hil⟩) :=
        List.mem_of_mem_head? hki
      have hmemj : ((first :: rest).get ⟨j, j.isLt⟩).1 ∈ keysOf (lvsList.get ⟨j, hjl⟩) :=
        List.mem_of_mem_head? hkj'
      have hcross := pairwise_join_cross (lvsList.map keysOf) (hkj ▸ hsorted)
        i j (by simpa using hil) (by simpa using hjl) hij
      have hgi : (lvsList.map keysOf).get ⟨i, by simpa using hil⟩ =
          keysOf (lvsList.get ⟨i, hil⟩) := by
        simp
      have hgj : (lvsList.map keysOf).get ⟨j, by simpa using hjl⟩ =
          keysOf (lvsList.get ⟨j, hjl⟩) := by
        simp
      exact hcross _ (hgi ▸ hmemi) _ (hgj ▸ hmemj)
    -- the target is at least the first index key
    have hfirstle : first.1 ≤ k := by
      obtain ⟨k0, hk0, hk0le⟩ := hk
      obtain ⟨B0, Brest, hBL⟩ : ∃ B0 Brest, lvsList = B0 :: Brest := by
        cases lvsList with
        | nil => simp at hlen
        | cons B0 Brest => exact ⟨B0, Brest, rfl⟩
      have h0r : 0 < (first :: rest).length := by simp
      have h0l : 0 < lvsList.length := by
        rw [hBL]
        simp
      have hB0head : (keysOf B0).head? = some first.1 := by
        have := hbhead 0 h0r h0l
        simpa [hBL] using this
      have hjoin0 : (keysOf lvsList.flatten).head? = some first.1 := by
        rw [hkj, hBL]
        have hj2 : ((keysOf B0 :: Brest.map keysOf).flatten) =
            keysOf B0 ++ (Brest.map keysOf).flatten := rfl
        have := head?_append_left (keysOf B0) ((Brest.map keysOf).flatten) hB0head
        simpa [hj2] using this
      rw [hjoin0] at hk0
      obtain rfl : first.1 = k0 := by simpa using hk0
      exact hk0le
    -- choose the child the code descends into
    have hnotlt : ¬ k < first.1 := not_lt.mpr hfirstle
    have hcc := chooseChild_spec k first rest hrecs_sorted hfirstle
    obtain ⟨i, hi, hcceq, hccle, hccgt⟩ := hcc
    have hil : i < lvsList.length := hlen ▸ hi
    -- the chosen child's block satisfies the IH side conditions
    have hbh := hbhead i hi hil
    have hkblock : ∃ k0, (keysOf (lvsList.get ⟨i, hil⟩)).head? = some k0 ∧ k0 ≤ k :=
      ⟨((first :: rest).get ⟨i, hi⟩).1, hbh, hccle⟩
    obtain ⟨pre', leafJ, post', hsplit', hfuel', hheadJ, hpost'⟩ :=
      ih i hi hil k (hbsorted i hil) hkblock
    -- decompose the leaf list of the whole subtree around the chosen block
    have hLL : lvsList = lvsList.take i ++ lvsList.get ⟨i, hil⟩ :: lvsList.drop (i + 1) := by
      conv_lhs => rw [← List.take_append_drop i lvsList]
      rw [List.drop_eq_getElem_cons hil]
      rfl
    refine ⟨(lvsList.take i).flatten ++ pre', leafJ,
      post' ++ (lvsList.drop (i + 1)).flatten, ?_, ?_, hheadJ, ?_⟩
    · conv_lhs => rw [hLL]
      rw [List.flatten_append]
      have : (lvsList.get ⟨i, hil⟩ :: lvsList.drop (i + 1)).flatten =
          lvsList.get ⟨i, hil⟩ ++ (lvsList.drop (i + 1)).flatten := rfl
      rw [this, hsplit']
      simp [List.append_assoc]
    · intro fuel
      have hstep : getRecordNode store k (fuel + (h + 1)) nid =
          getRecordNode store k (fuel + h) (chooseChild k first rest).2 := by
        have heq1 : fuel + (h + 1) = (fuel + h) + 1 := rfl
        rw [heq1]
        exact getRecordNode_unfold_index store k (fuel + h) nid hstore rfl hnotlt
      rw [hstep, hcceq]
      exact hfuel' fuel
    · intro l hl p hp
      rcases List.mem_append.mp hl with hl | hl
      · exact hpost' l hl p hp
      · -- a leaf of a later block: its head key exceeds k
        obtain ⟨b, hb, hlb⟩ := List.mem_flatten.mp hl
        obtain ⟨t, ht⟩ := List.mem_iff_get.mp hb
        have htl : (i + 1) + (t : Nat) < lvsList.length := by
          have := t.isLt
          simp only [List.length_drop] at this
          omega
        have hbt : b = lvsList.get ⟨(i + 1) + (t : Nat), htl⟩ := by
          rw [← ht]
          simp [List.getElem_drop]
      -- p is an entry of that block
        have hpmem : p.1 ∈ keysOf b := by
          refine List.mem_map_of_mem Prod.fst ?_
          have hpl : p ∈ l.2 := List.mem_of_mem_head? hp
          simp only [entriesOf, List.mem_flatten]
          exact ⟨l.2, List.mem_map_of_mem Prod.snd hlb, hpl⟩
        have hm' : (i + 1) + (t : Nat) < (first :: rest).length := by omega
        have hmgt : k < ((first :: rest).get ⟨(i + 1) + (t : Nat), hm'⟩).1 :=
          hccgt ((i + 1) + (t : Nat)) hm' (by omega)
        have hble : ((first :: rest).get ⟨(i + 1) + (t : Nat), hm'⟩).1 ≤ p.1 := by
          refine head_le_of_sorted (hbsorted _ htl) ?_ ?_
          · exact hbhead _ hm' htl
          · rw [← hbt]
            exact hpmem
        exact lt_of_lt_of_le hmgt hble

lemma getRecord_reaches_leaf {store : Nat → Option (BNode K R)}
    {rootNode height : Nat} {lvs : List (LeafRec K R)}
    (hwf : WF store rootNode height lvs) (k : K) {k0 : K}
    (hhead : (keysOf lvs).head? = some k0) (hk0 : k0 ≤ k)
    (fuel : Nat) (hfuel : height + lvs.length ≤ fuel) :
    ∃ (pre : List (LeafRec K R)) (leafJ : LeafRec K R) (post : List (LeafRec K R))
      (hj : pre.length < lvs.length),
      lvs = pre ++ leafJ :: post ∧
      lvs.get ⟨pre.length, hj⟩ = leafJ ∧
      getRecord store rootNode k fuel = getRecordNode store k (fuel - height) leafJ.1 ∧
      lvs.length - pre.length ≤ fuel - height ∧
      (∃ p, leafJ.2.head? = some p ∧ p.1 ≤ k) ∧
      (∀ l ∈ post, ∀ p, l.2.head? = some p → k < p.1) := by
  obtain ⟨pre, leafJ, post, hsplit, hfuelEq, hheadJ, hpost⟩ :=
    descend hwf.sub k hwf.sorted ⟨k0, hhead, hk0⟩
  have hlen : lvs.length = pre.length + (post.length + 1) := by
    rw [hsplit]
    simp
  have hj : pre.length < lvs.length := by omega
  have hget : lvs.get ⟨pre.length, hj⟩ = leafJ := by
    subst hsplit
    rw [List.get_eq_getElem, List.getElem_append_right (Nat.le_refl _)]
    simp
  refine ⟨pre, leafJ, post, hj, hsplit, hget, ?_, by omega, hheadJ, hpost⟩
  have hfe : fuel = (fuel - height) + height := by omega
  rw [getRecord]
  conv_lhs => rw [hfe]
  exact hfuelEq (fuel - height)

/-- C6: B-tree point lookup.  For every well-formed B-tree (`WF`: a linked,
strictly sorted leaf chain under an index structure whose record keys are
the first keys of their subtrees): (1) `get_record` on a key present in
some leaf returns exactly that record; (2) on a key strictly between two
consecutive present keys it returns `KeyNotFound`; (3) at index nodes the
descent chooses the last child whose key is ≤ the target; (4) at leaves a
record is returned only on exact key equality. -/
theorem getRecord_point_lookup {K R : Type} [LinearOrder K]
    (store : Nat → Option (BNode K R)) (rootNode height : Nat)
    (lvs : List (LeafRec K R)) (hwf : WF store rootNode height lvs)
    (k : K) (fuel : Nat) (hfuel : height + lvs.length ≤ fuel) :
    (∀ r : R, (k, r) ∈ entriesOf lvs →
        getRecord store rootNode k fuel = some (.ok r)) ∧
    (∀ l1 l2 kl kr, keysOf lvs = l1 ++ kl :: kr :: l2 → kl < k → k < kr →
        getRecord store rootNode k fuel = some (.err .keyNotFound)) ∧
    (∀ (first : K × Nat) (rest : List (K × Nat)),
        (((first :: rest).map Prod.fst).Pairwise (· < ·)) → first.1 ≤ k →
        ∃ (i : Nat) (hi : i < (first :: rest).length),
          chooseChild k first rest = (first :: rest).get ⟨i, hi⟩ ∧
          ((first :: rest).get ⟨i, hi⟩).1 ≤ k ∧
          ∀ m (hm : m < (first :: rest).length), i < m →
            k < ((first :: rest).get ⟨m, hm⟩).1) ∧
    (∀ (l : List (K × R)) (r : R), leafScan k l = some (.ok r) → (k, r) ∈ l) := by
  refine ⟨?_, ?_, chooseChild_spec k, fun l r => leafScan_exact⟩
  · -- present key
    intro r hmem
    have hkmem : k ∈ keysOf lvs := by
      simpa [keysOf] using List.mem_map_of_mem Prod.fst hmem
    obtain ⟨k0, hhead⟩ : ∃ k0, (keysOf lvs).head? = some k0 := by
      cases hks : keysOf lvs with
      | nil => rw [hks] at hkmem; simp at hkmem
      | cons x t => exact ⟨x, rfl⟩
    have hk0 : k0 ≤ k := head_le_of_sorted hwf.sorted hhead hkmem
    obtain ⟨pre, leafJ, post, hj, hsplit, hget, heq, hfl, hheadJ, hpost⟩ :=
      getRecord_reaches_leaf hwf k hhead hk0 fuel hfuel
    rw [heq, ← hget]
    refine chainScan_found store lvs hwf.chain hwf.ids_nonzero hwf.sorted k r
      (fuel - height) pre.length hj hfl ?_
    have hdrop : lvs.drop pre.length = leafJ :: post := by
      rw [hsplit]
      exact List.drop_left pre (leafJ :: post)
    rw [hdrop]
    rw [hsplit, entriesOf_append] at hmem
    rcases List.mem_append.mp hmem with hin | hin
    · exfalso
      obtain ⟨p, hp, hple⟩ := hheadJ
      have hks : keysOf lvs = keysOf pre ++ keysOf (leafJ :: post) := by
        rw [hsplit, keysOf_append]
      have hcross := (List.pairwise_append.mp (hks ▸ hwf.sorted)).2.2
      have hkp : k ∈ keysOf pre := by
        simpa [keysOf] using List.mem_map_of_mem Prod.fst hin
      have hpk : p.1 ∈ keysOf (leafJ :: post) := by
        refine List.mem_map_of_mem Prod.fst ?_
        rw [entriesOf_cons]
        exact List.mem_append.mpr (Or.inl (List.mem_of_mem_head? hp))
      exact absurd (lt_of_lt_of_le (hcross k hkp p.1 hpk) hple) (lt_irrefl k)
    · exact hin
  · -- key in a gap between consecutive present keys
    intro l1 l2 kl kr hks hkl hkr
    have hnk : ∀ x ∈ keysOf lvs, x ≠ k := by
      intro x hx
      rw [hks] at hx
      have hsorted' := hks ▸ hwf.sorted
      rcases List.mem_append.mp hx with hx1 | hx2
      · have hxlt : x < kl := (List.pairwise_append.mp hsorted').2.2 x hx1 kl (by simp)
        exact ne_of_lt (hxlt.trans hkl)
      · rcases List.mem_cons.mp hx2 with rfl | hx3
        · exact ne_of_lt hkl
        rcases List.mem_cons.mp hx3 with rfl | hx4
        · exact ne_of_gt hkr
        · have hpair2 := (List.pairwise_append.mp hsorted').2.1
          have hpair3 := (List.pairwise_cons.mp hpair2).2
          have hgtx : kr < x := (List.pairwise_cons.mp hpair3).1 x hx4
          exact ne_of_gt (hkr.trans hgtx)
    obtain ⟨k0, hhead⟩ : ∃ k0, (keysOf lvs).head? = some k0 := by
      cases hks2 : keysOf lvs with
      | nil =>
        rw [hks2] at hks
        cases l1 <;> simp at hks
      | cons x t => exact ⟨x, rfl⟩
    have hklmem : kl ∈ keysOf lvs := by
      rw [hks]
      simp
    have hk0 : k0 ≤ k :=
      le_of_lt (lt_of_le_of_lt (head_le_of_sorted hwf.sorted hhead hklmem) hkl)
    obtain ⟨pre, leafJ, post, hj, hsplit, hget, heq, hfl, hheadJ, hpost⟩ :=
      getRecord_reaches_leaf hwf k hhead hk0 fuel hfuel
    rw [heq, ← hget]
    refine chainScan_notfound store lvs hwf.chain hwf.ids_nonzero k
      (fuel - height) pre.length hj hfl ?_
    intro p hp
    have hsubl : (entriesOf (lvs.drop pre.length)).Sublist (entriesOf lvs) :=
      entriesOf_sublist (List.drop_sublist _ _)
    have hpk : p.1 ∈ keysOf lvs :=
      List.mem_map_of_mem Prod.fst (hsubl.subset hp)
    exact hnk p.1 hpk

end Lemmas

lemma wf6 : WF store6 1 1 lvs6 := by
  refine ⟨?_, ?_, ?_, ?_, ?_⟩
  · have h0 : Sub store6 0 2 [(2, [(10, 100), (20, 200)])] :=
      Sub.leaf 2 [(10, 100), (20, 200)] 3 rfl
    have h1 : Sub store6 0 3 [(3, [(30, 300)])] :=
      Sub.leaf 3 [(30, 300)] 0 rfl
    exact Sub.index 0 1 [(10, 2), (30, 3)]
      [[(2, [(10, 100), (20, 200)])], [(3, [(30, 300)])]] rfl (by simp) (by simp)
      (by
        intro i hi hj
        have hi2 : i < 2 := by simpa using hi
        interval_cases i
        · exact h0
        · exact h1)
      (by
        intro i hi hj
        have hi2 : i < 2 := by simpa using hi
        interval_cases i
        · rfl
        · rfl)
  · intro i hi
    have hi2 : i < 2 := by simpa [lvs6] using hi
    interval_cases i
    · rfl
    · rfl
  · decide
  · decide
  · decide

/-- C6 (witness): in the concrete tree, looking up the present key 20
returns its record 200, and looking up 25 — strictly between the
consecutive present keys 20 and 30 — returns `KeyNotFound`. -/
theorem getRecord_point_lookup_witness :
    getRecord store6 1 20 4 = some (.ok 200) ∧
    getRecord store6 1 25 4 = some (.err .keyNotFound) := by
  constructor
  · exact (getRecord_point_lookup store6 1 1 lvs6 wf6 20 4 (by decide)).1 200 (by decide)
  · exact (getRecord_point_lookup store6 1 1 lvs6 wf6 25 4 (by decide)).2.1
      [10] [] 20 30 (by decide) (by decide) (by decide)

end BT

namespace Dmg

/-- C10 (counterexample): the seek target 2^63 is a non-negative position,
yet `seek(SeekFrom::Start(2^63))` fails: `s as i64` reinterprets it as a
negative i64 and the handler rejects it. -/
theorem seek_start_overflow_counterexample :
    seekP (initReader []) (.start (2 ^ 63)) = none ∧
    (0 : Int) ≤ ((2 ^ 63 : Nat) : Int) := by
  constructor
  · decide
  · decide

/-- C10 (amended): `seek` succeeds for every target whose computed i64
position is non-negative — in particular for every `Start(s)` with
`s < 2^63`, including positions past the end of the partition, no bound is
checked — and fails exactly when the computed i64 position is negative;
and a read at a position not covered by any chunk's sector range returns
`Ok(0)` (end of stream, not an error) leaving the reader, including its
position, unchanged. -/
theorem seek_read_spec (st : PReader) (f : SeekFrom)
    (inflate : List Nat → List Nat) (disk : Nat → Nat) (buflen : Nat) :
    (∀ s : Nat, s < 2 ^ 63 →
        seekP st (.start s) = some (s, { st with pos := s })) ∧
    (seekTarget st f < 0 ↔ seekP st f = none) ∧
    (getChunkAtPos st.chunks st.pos = none →
        readP inflate disk st buflen = some ([], st)) := by
  refine ⟨?_, ?_, ?_⟩
  · intro s hs
    have hmod : s % 2 ^ 64 = s := Nat.mod_eq_of_lt (lt_trans hs (by norm_num))
    have htgt : seekTarget st (.start s) = (s : Int) := by
      simp only [seekTarget, asI64, hmod]
      rw [if_pos hs]
    simp [seekP, htgt]
  · constructor
    · intro h
      simp [seekP, h]
    · intro h
      by_contra hneg
      rw [seekP, if_neg hneg] at h
      simp at h
  · intro hnone
    by_cases hb : buflen = 0 <;> simp [readP, readAux, hnone, hb]

/-- C10 (witness): seeking far past the end of an empty partition
succeeds, a negative computed position fails, and a read at an uncovered
position returns 0 bytes with the state unchanged. -/
theorem seek_read_spec_witness :
    seekP (initReader []) (.start (2 ^ 62)) =
      some (2 ^ 62, { initReader [] with pos := 2 ^ 62 }) ∧
    seekP (initReader []) (.current (-5)) = none ∧
    readP (fun l => l) (fun _ => 0) (initReader []) 8 = some ([], initReader []) := by
  refine ⟨?_, ?_, ?_⟩
  · exact (seek_read_spec (initReader []) (.start 0) (fun l => l) (fun _ => 0) 8).1
      (2 ^ 62) (by norm_num)
  · exact (seek_read_spec (initReader []) (.current (-5)) (fun l => l)
      (fun _ => 0) 8).2.1.mp (by decide)
  · exact (seek_read_spec (initReader []) (.start 0) (fun l => l)
      (fun _ => 0) 8).2.2 (by decide)

lemma cacheGet_isSome_iff (cache : List (Nat × List Nat)) (i : Nat) :
    (cacheGet cache i).isSome = true ↔ i ∈ cache.map Prod.fst := by
  induction cache with
  | nil => simp [cacheGet]
  | cons p rest ih =>
    obtain ⟨j, d⟩ := p
    by_cases hj : j = i
    · subst hj
      simp [cacheGet]
    · rw [cacheGet, if_neg hj]
      simp only [List.map_cons, List.mem_cons]
      rw [ih]
      constructor
      · exact Or.inr
      · rintro (h | h)
        · exact absurd h.symm hj
        · exact h

lemma cacheRemove_map (cache : List (Nat × List Nat)) (i : Nat) :
    (cacheRemove cache i).map Prod.fst = (cache.map Prod.fst).erase i := by
  induction cache with
  | nil => simp [cacheRemove]
  | cons p rest ih =>
    obtain ⟨j, d⟩ := p
    by_cases hj : j = i
    · subst hj
      rw [cacheRemove, if_pos rfl]
      simp [List.erase_cons]
    · rw [cacheRemove, if_neg hj]
      simp only [List.map_cons]
      rw [List.erase_cons, if_neg (by simpa using hj), ih]

lemma loadChunk_inv {inflate : List Nat → List Nat} {disk : Nat → Nat}
    {st st1 : PReader} {idx : Nat} {ev : Bool} (hinv : CacheInv st)
    (h : loadChunk inflate disk st idx = some (st1, ev)) :
    CacheInv st1 ∧ st1.chunks = st.chunks ∧ st1.pos = st.pos ∧
      st1.total_size = st.total_size := by
  obtain ⟨hnd, hperm, hbound⟩ := hinv
  rw [loadChunk] at h
  by_cases hhit : (cacheGet st.cache idx).isSome = true
  · rw [if_pos hhit] at h
    obtain ⟨rfl, rfl⟩ := Prod.mk.inj (Option.some.inj h)
    have hidxmem : idx ∈ st.cache.map Prod.fst := (cacheGet_isSome_iff _ _).mp hhit
    have hidxord : idx ∈ st.cache_order := hperm.mem_iff.mpr hidxmem
    refine ⟨⟨hnd, ?_, hbound⟩, rfl, rfl, rfl⟩
    exact (List.perm_append_singleton idx _).trans
      (((List.perm_cons_erase hidxord).symm).trans hperm)
  · rw [if_neg hhit] at h
    have hmiss : idx ∉ st.cache.map Prod.fst := fun hc =>
      hhit ((cacheGet_isSome_iff _ _).mpr hc)
    cases hc : st.chunks.get? idx with
    | none =>
      rw [hc] at h
      exact absurd h (by simp)
    | some c =>
      rw [hc] at h
      dsimp only at h
      cases hd : decodeChunk inflate disk c with
      | none =>
        rw [hd] at h
        exact absurd h (by simp)
      | some data =>
        rw [hd] at h
        dsimp only at h
        by_cases hfull : MAX_CACHE_CHUNKS ≤ st.cache.length
        · rw [if_pos hfull] at h
          cases ho : st.cache_order with
          | nil =>
            rw [ho] at h
            obtain ⟨rfl, rfl⟩ := Prod.mk.inj (Option.some.inj h)
            exfalso
            have : st.cache.map Prod.fst = [] := by
              have := hperm
              rw [ho] at this
              exact (List.Perm.nil_eq this).symm
            have hlen0 : st.cache.length = 0 := by
              have := congrArg List.length this
              simpa using this
            rw [hlen0] at hfull
            simp [MAX_CACHE_CHUNKS] at hfull
          | cons oldest restOrder =>
            rw [ho] at h
            obtain ⟨rfl, rfl⟩ := Prod.mk.inj (Option.some.inj h)
            have holdmem : oldest ∈ st.cache.map Prod.fst := by
              refine hperm.mem_iff.mp ?_
              rw [ho]
              simp
            have hpermrest : restOrder.Perm ((st.cache.map Prod.fst).erase oldest) := by
              have h1 : (oldest :: restOrder).Perm (st.cache.map Prod.fst) := ho ▸ hperm
              have h2 : (st.cache.map Prod.fst).Perm
                  (oldest :: (st.cache.map Prod.fst).erase oldest) :=
                List.perm_cons_erase holdmem
              exact (h1.trans h2).cons_inv
            have hndE : ((st.cache.map Prod.fst).erase oldest).Nodup :=
              hnd.erase oldest
            have hmissE : idx ∉ (st.cache.map Prod.fst).erase oldest := fun hc2 =>
              hmiss (List.mem_of_mem_erase hc2)
            have hlenE : ((st.cache.map Prod.fst).erase oldest).length =
                st.cache.length - 1 := by
              rw [List.length_erase_of_mem holdmem]
              simp
            refine ⟨⟨?_, ?_, ?_⟩, rfl, rfl, rfl⟩
            · simp only [List.map_cons, cacheRemove_map]
              exact List.nodup_cons.mpr ⟨hmissE, hndE⟩
            · simp only [List.map_cons, cacheRemove_map]
              exact (List.perm_append_singleton idx _).trans (hpermrest.cons idx)
            · have hlr : (cacheRemove st.cache oldest).length = st.cache.length - 1 := by
                have h1 := congrArg List.length (cacheRemove_map st.cache oldest)
                rw [List.length_map, List.length_erase_of_mem holdmem, List.length_map] at h1
                exact h1
              have hM : MAX_CACHE_CHUNKS = 256 := rfl
              simp only [List.length_cons, hlr]
              omega
        · rw [if_neg hfull] at h
          obtain ⟨rfl, rfl⟩ := Prod.mk.inj (Option.some.inj h)
          refine ⟨⟨?_, ?_, ?_⟩, rfl, rfl, rfl⟩
          · simp only [List.map_cons]
            exact List.nodup_cons.mpr ⟨hmiss, hnd⟩
          · simp only [List.map_cons]
            exact (List.perm_append_singleton idx _).trans (hperm.cons idx)
          · have hlt : st.cache.length < MAX_CACHE_CHUNKS := not_le.mp hfull
            simp only [List.length_cons]
            omega

lemma pigeonhole_mem {keys : List Nat} {N : Nat} (hnd : keys.Nodup)
    (hb : ∀ i ∈ keys, i < N) (hlen : N ≤ keys.length) {i : Nat} (hi : i < N) :
    i ∈ keys := by
  have hsub : keys.toFinset ⊆ Finset.range N := by
    intro x hx
    exact Finset.mem_range.mpr (hb x (List.mem_toFinset.mp hx))
  have hcard : keys.toFinset.card = keys.length := List.toFinset_card_of_nodup hnd
  have heq : keys.toFinset = Finset.range N := by
    refine Finset.eq_of_subset_of_card_le hsub ?_
    rw [hcard, Finset.card_range]
    exact hlen
  rw [← List.mem_toFinset, heq]
  exact Finset.mem_range.mpr hi

lemma loadChunk_no_evict {inflate : List Nat → List Nat} {disk : Nat → Nat}
    {st st1 : PReader} {idx N : Nat} {ev : Bool}
    (hN : N ≤ MAX_CACHE_CHUNKS) (hidx : idx < N) (hinv : CacheInv st)
    (hb : BoundedKeys N st)
    (h : loadChunk inflate disk st idx = some (st1, ev)) :
    ev = false ∧ BoundedKeys N st1 := by
  obtain ⟨hnd, hperm, hbound⟩ := hinv
  rw [loadChunk] at h
  by_cases hhit : (cacheGet st.cache idx).isSome = true
  · rw [if_pos hhit] at h
    obtain ⟨rfl, rfl⟩ := Prod.mk.inj (Option.some.inj h)
    exact ⟨rfl, hb⟩
  · rw [if_neg hhit] at h
    have hmiss : idx ∉ st.cache.map Prod.fst := fun hc =>
      hhit ((cacheGet_isSome_iff _ _).mpr hc)
    cases hc : st.chunks.get? idx with
    | none =>
      rw [hc] at h
      exact absurd h (by simp)
    | some c =>
      rw [hc] at h
      dsimp only at h
      cases hd : decodeChunk inflate disk c with
      | none =>
        rw [hd] at h
        exact absurd h (by simp)
      | some data =>
        rw [hd] at h
        dsimp only at h
        by_cases hfull : MAX_CACHE_CHUNKS ≤ st.cache.length
        · exfalso
          have hlen : N ≤ (st.cache.map Prod.fst).length := by
            rw [List.length_map]
            omega
          exact hmiss (pigeonhole_mem hnd hb hlen hidx)
        · rw [if_neg hfull] at h
          obtain ⟨rfl, rfl⟩ := Prod.mk.inj (Option.some.inj h)
          refine ⟨rfl, ?_⟩
          intro i hi
          simp only [List.map_cons, List.mem_cons] at hi
          rcases hi with rfl | hi
          · exact hidx
          · exact hb i hi

lemma readAux_inv {inflate : List Nat → List Nat} {disk : Nat → Nat} :
    ∀ (fuel : Nat) (st : PReader) (buflen : Nat) (bytes : List Nat) (st1 : PReader),
    CacheInv st → readAux inflate disk fuel st buflen = some (bytes, st1) →
    CacheInv st1 ∧ st1.chunks = st.chunks ∧ st1.total_size = st.total_size := by
  intro fuel
  induction fuel with
  | zero =>
    intro st buflen bytes st1 hinv h
    simp [readAux] at h
  | succ f ih =>
    intro st buflen bytes st1 hinv h
    rw [readAux] at h
    by_cases hb : buflen = 0
    · rw [if_pos hb] at h
      obtain ⟨rfl, rfl⟩ := Prod.mk.inj (Option.some.inj h)
      exact ⟨hinv, rfl, rfl⟩
    · rw [if_neg hb] at h
      cases hg : getChunkAtPos st.chunks st.pos with
      | none =>
        rw [hg] at h
        obtain ⟨rfl, rfl⟩ := Prod.mk.inj (Option.some.inj h)
        exact ⟨hinv, rfl, rfl⟩
      | some idx =>
        rw [hg] at h
        dsimp only at h
        cases hc : st.chunks.get? idx with
        | none =>
          rw [hc] at h
          exact absurd h (by simp)
        | some c =>
          rw [hc] at h
          dsimp only at h
          cases hl : loadChunk inflate disk st idx with
          | none =>
            rw [hl] at h
            exact absurd h (by simp)
          | some p =>
            obtain ⟨stL, ev⟩ := p
            rw [hl] at h
            dsimp only at h
            obtain ⟨hinvL, hchL, hposL, htsL⟩ := loadChunk_inv hinv hl
            cases hcg : cacheGet stL.cache idx with
            | none =>
              rw [hcg] at h
              exact absurd h (by simp)
            | some chunk_data =>
              rw [hcg] at h
              dsimp only at h
              by_cases hav : chunk_data.length - (st.pos - c.sector_number * 512) = 0
              · rw [if_pos hav] at h
                obtain ⟨hinv1, hch1, hts1⟩ := ih
                  { stL with pos := c.sector_number * 512 + c.sector_count * 512 }
                  buflen bytes st1 hinvL h
                exact ⟨hinv1, by rw [hch1]; exact hchL, by rw [hts1]; exact htsL⟩
              · rw [if_neg hav] at h
                obtain ⟨rfl, rfl⟩ := Prod.mk.inj (Option.some.inj h)
                exact ⟨hinvL, hchL, htsL⟩

lemma applyOps_inv {inflate : List Nat → List Nat} {disk : Nat → Nat} :
    ∀ (ops : List Op) (st st1 : PReader), CacheInv st →
    applyOps inflate disk ops st = some st1 → CacheInv st1 := by
  intro ops
  induction ops with
  | nil =>
    intro st st1 hinv h
    obtain rfl := Option.some.inj h
    exact hinv
  | cons op rest ih =>
    intro st st1 hinv h
    rw [applyOps] at h
    cases hop : applyOp inflate disk st op with
    | none =>
      rw [hop] at h
      exact absurd h (by simp)
    | some stm =>
      rw [hop] at h
      refine ih stm st1 ?_ h
      cases op with
      | rd buflen =>
        rw [applyOp] at hop
        cases hr : readP inflate disk st buflen with
        | none =>
          rw [hr] at hop
          exact absurd hop (by simp)
        | some p =>
          rw [hr] at hop
          obtain rfl : p.2 = stm := by simpa using hop
          exact (readAux_inv _ st buflen p.1 p.2 hinv (by rw [← hr]; rfl)).1
      | sk f =>
        rw [applyOp] at hop
        cases hs : seekP st f with
        | none =>
          rw [hs] at hop
          exact absurd hop (by simp)
        | some q =>
          rw [hs] at hop
          obtain rfl : q.2 = stm := by simpa using hop
          rw [seekP] at hs
          by_cases hneg : seekTarget st f < 0
          · rw [if_pos hneg] at hs
            exact absurd hs (by simp)
          · rw [if_neg hneg] at hs
            obtain rfl : q = ((seekTarget st f).toNat,
                { st with pos := (seekTarget st f).toNat }) := by simpa using hs.symm
            exact hinv

lemma loadSeq_no_evict {inflate : List Nat → List Nat} {disk : Nat → Nat} {N : Nat}
    (hN : N ≤ MAX_CACHE_CHUNKS) :
    ∀ (idxs : List Nat) (st st2 : PReader) (ev : Bool),
    (∀ i ∈ idxs, i < N) → CacheInv st → BoundedKeys N st →
    loadSeq inflate disk st idxs = some (st2, ev) → ev = false := by
  intro idxs
  induction idxs with
  | nil =>
    intro st st2 ev hall hinv hb h
    obtain ⟨rfl, rfl⟩ := Prod.mk.inj (Option.some.inj h.symm)
    rfl
  | cons i rest ih =>
    intro st st2 ev hall hinv hb h
    rw [loadSeq] at h
    cases hl : loadChunk inflate disk st i with
    | none =>
      rw [hl] at h
      exact absurd h (by simp)
    | some p =>
      obtain ⟨st1, ev1⟩ := p
      rw [hl] at h
      dsimp only at h
      obtain ⟨hev1, hb1⟩ := loadChunk_no_evict hN (hall i (by simp)) hinv hb hl
      have hinv1 := (loadChunk_inv hinv hl).1
      cases hseq : loadSeq inflate disk st1 rest with
      | none =>
        rw [hseq] at h
        exact absurd h (by simp)
      | some q =>
        obtain ⟨st2', ev2⟩ := q
        rw [hseq] at h
        obtain ⟨rfl, rfl⟩ := Prod.mk.inj (Option.some.inj h)
        have hev2 : ev2 = false :=
          ih st1 st2' ev2 (fun j hj => hall j (by simp [hj])) hinv1 hb1 hseq
        rw [hev1, hev2]
        rfl

/-- C8: (1) after any sequence of reads and seeks from a fresh partition
reader the cache never holds more than `MAX_CACHE_CHUNKS` = 256 decoded
chunks; (2) when every chunk index loaded comes from a working set of
`N ≤ 256` distinct chunks — in particular during a linear front-to-back
scan over a partition with at most 256 chunks — no `load_chunk` call ever
evicts a cache entry. -/
theorem cache_lru_bounded (inflate : List Nat → List Nat) (disk : Nat → Nat)
    (chunks : List BlkxChunk) :
    (∀ (ops : List Op) (st1 : PReader),
        applyOps inflate disk ops (initReader chunks) = some st1 →
        st1.cache.length ≤ MAX_CACHE_CHUNKS) ∧
    (∀ (idxs : List Nat) (N : Nat) (st2 : PReader) (ev : Bool),
        N ≤ MAX_CACHE_CHUNKS → (∀ i ∈ idxs, i < N) →
        loadSeq inflate disk (initReader chunks) idxs = some (st2, ev) →
        ev = false) := by
  have hinv0 : CacheInv (initReader chunks) :=
    ⟨List.nodup_nil, List.Perm.refl _, by simp [MAX_CACHE_CHUNKS, initReader]⟩
  constructor
  · intro ops st1 h
    exact (applyOps_inv ops (initReader chunks) st1 hinv0 h).2.2
  · intro idxs N st2 ev hN hall h
    exact loadSeq_no_evict hN idxs (initReader chunks) st2 ev hall hinv0
      (by intro i hi; simp [initReader] at hi) h

/-- C8 (witness): one read of a one-chunk partition leaves one cached
chunk (within the 256 bound), and loading chunk 0 twice — a linear scan
with N = 1 ≤ 256 — never evicts. -/
theorem cache_lru_bounded_witness :
    stW.cache.length ≤ MAX_CACHE_CHUNKS ∧
    loadSeq (fun l => l) (fun _ => 0) (initReader [chunkW]) [0, 0] =
      some (stW2, false) := by
  constructor
  · exact (cache_lru_bounded (fun l => l) (fun _ => 0) [chunkW]).1
      [Op.rd 4] stW (by decide)
  · obtain ⟨ev, hev⟩ : ∃ ev, loadSeq (fun l => l) (fun _ => 0)
        (initReader [chunkW]) [0, 0] = some (stW2, ev) := ⟨false, by decide⟩
    have hf := (cache_lru_bounded (fun l => l) (fun _ => 0) [chunkW]).2
      [0, 0] 1 stW2 ev (by decide) (by decide) hev
    rw [hf] at hev
    exact hev

lemma totalSectors_append (l1 l2 : List BlkxChunk) :
    totalSectors (l1 ++ l2) = totalSectors l1 + totalSectors l2 := by
  simp [totalSectors]

lemma decode_len {inflate : List Nat → List Nat} {disk : Nat → Nat}
    {c : BlkxChunk} (hok : chunkOK inflate disk c) :
    ∃ d, decodeChunk inflate disk c = some d ∧
      d.length = c.sector_count * 512 := by
  cases hty : c.ty <;> simp only [chunkOK, hty] at hok <;>
    simp only [decodeChunk, hty]
  case zero => exact ⟨_, rfl, by simp⟩
  case ignore => exact ⟨_, rfl, by simp⟩
  case raw => exact ⟨_, rfl, by simp [rawBytes, hok]⟩
  case zlib => exact ⟨_, rfl, hok⟩
  case comment => exact ⟨_, rfl, by simp [hok]⟩
  case term => exact ⟨_, rfl, by simp [hok]⟩

lemma partitionData_spec (inflate : List Nat → List Nat) (disk : Nat → Nat)
    (chunks : List BlkxChunk) :
    (∀ c ∈ chunks, chunkOK inflate disk c) →
    ∃ full, partitionData inflate disk chunks = some full ∧
      full.length = 512 * totalSectors chunks := by
  induction chunks with
  | nil =>
    intro _
    exact ⟨[], rfl, by simp [totalSectors]⟩
  | cons c rest ih =>
    intro h
    obtain ⟨d, hd, hdl⟩ := decode_len (h c (by simp))
    obtain ⟨full, hfull, hfl⟩ := ih (fun c' hc' => h c' (by simp [hc']))
    refine ⟨d ++ full, ?_, ?_⟩
    · simp only [partitionData, hd, hfull]
    · have ht : totalSectors (c :: rest) = c.sector_count + totalSectors rest := by
        simp [totalSectors]
      rw [List.length_append, hdl, hfl, ht]
      ring

lemma partitionData_decomp (inflate : List Nat → List Nat) (disk : Nat → Nat) :
    ∀ (chunks : List BlkxChunk) (base k : Nat) (hk : k < chunks.length),
    ContigFrom base chunks → (∀ c ∈ chunks, chunkOK inflate disk c) →
    ∃ headBytes d tailBytes,
      partitionData inflate disk chunks = some (headBytes ++ d ++ tailBytes) ∧
      headBytes.length = 512 * ((chunks.get ⟨k, hk⟩).sector_number - base) ∧
      base ≤ (chunks.get ⟨k, hk⟩).sector_number ∧
      decodeChunk inflate disk (chunks.get ⟨k, hk⟩) = some d := by
  intro chunks
  induction chunks with
  | nil =>
    intro base k hk
    exact absurd hk (by simp)
  | cons c rest ih =>
    intro base k hk hcont hok
    obtain ⟨hbase, hcont2⟩ := hcont
    cases k with
    | zero =>
      obtain ⟨d, hd, hdl⟩ := decode_len (hok c (by simp))
      obtain ⟨full, hfull, hfl⟩ := partitionData_spec inflate disk rest
        (fun c' hc' => hok c' (by simp [hc']))
      refine ⟨[], d, full, ?_, ?_, ?_, ?_⟩
      · simp only [partitionData, hd, hfull, List.nil_append]
      · show ([] : List Nat).length = 512 * (c.sector_number - base)
        simp [hbase]
      · show base ≤ c.sector_number
        omega
      · show decodeChunk inflate disk c = some d
        exact hd
    | succ k2 =>
      have hk2 : k2 < rest.length := by
        have hlc : (c :: rest).length = rest.length + 1 := rfl
        omega
      obtain ⟨d, hd, hdl⟩ := decode_len (hok c (by simp))
      obtain ⟨hb, db, tb, hpd, hhl, hble, hdec⟩ :=
        ih (base + c.sector_count) k2 hk2 hcont2
          (fun c' hc' => hok c' (by simp [hc']))
      refine ⟨d ++ hb, db, tb, ?_, ?_, ?_, ?_⟩
      · simp only [partitionData, hd, hpd]
        simp [List.append_assoc]
      · show (d ++ hb).length =
          512 * ((rest.get ⟨k2, hk2⟩).sector_number - base)
        rw [List.length_append, hdl, hhl]
        omega
      · show base ≤ (rest.get ⟨k2, hk2⟩).sector_number
        omega
      · show decodeChunk inflate disk (rest.get ⟨k2, hk2⟩) = some db
        exact hdec

lemma findCover_spec :
    ∀ (chunks : List BlkxChunk) (base sector : Nat), ContigFrom base chunks →
    base ≤ sector →
    (sector < base + totalSectors chunks →
      ∃ k, ∃ hk : k < chunks.length,
        findCover sector chunks = some k ∧
        (chunks.get ⟨k, hk⟩).sector_number ≤ sector ∧
        sector < (chunks.get ⟨k, hk⟩).sector_number +
          (chunks.get ⟨k, hk⟩).sector_count) ∧
    (base + totalSectors chunks ≤ sector → findCover sector chunks = none) := by
  intro chunks
  induction chunks with
  | nil =>
    intro base sector _ hbs
    constructor
    · intro hlt
      have h0 : totalSectors ([] : List BlkxChunk) = 0 := rfl
      rw [h0] at hlt
      exact absurd hlt (by omega)
    · intro _
      rfl
  | cons c rest ih =>
    intro base sector hcont hbs
    obtain ⟨hbase, hcont2⟩ := hcont
    have hts : totalSectors (c :: rest) = c.sector_count + totalSectors rest := by
      simp [totalSectors]
    constructor
    · intro hlt
      by_cases hin : sector < c.sector_number + c.sector_count
      · refine ⟨0, Nat.succ_pos _, ?_, ?_, ?_⟩
        · rw [findCover, if_pos ⟨by omega, hin⟩]
        · show c.sector_number ≤ sector
          omega
        · show sector < c.sector_number + c.sector_count
          exact hin
      · have hge2 : base + c.sector_count ≤ sector := by omega
        obtain ⟨k, hk, hfc, h1, h2⟩ :=
          (ih (base + c.sector_count) sector hcont2 hge2).1 (by omega)
        refine ⟨k + 1, Nat.succ_lt_succ hk, ?_, ?_, ?_⟩
        · rw [findCover, if_neg (fun hand => hin hand.2), hfc]
          rfl
        · show (rest.get ⟨k, hk⟩).sector_number ≤ sector
          exact h1
        · show sector < (rest.get ⟨k, hk⟩).sector_number +
            (rest.get ⟨k, hk⟩).sector_count
          exact h2
    · intro hge
      rw [findCover, if_neg (fun hand => absurd hand.2 (by omega)),
        (ih (base + c.sector_count) sector hcont2 (by omega)).2 (by omega)]
      rfl

lemma cacheGet_mem (cache : List (Nat × List Nat)) (i : Nat) (d : List Nat)
    (h : cacheGet cache i = some d) : (i, d) ∈ cache := by
  induction cache with
  | nil => simp [cacheGet] at h
  | cons p rest ih =>
    obtain ⟨j, dd⟩ := p
    rw [cacheGet] at h
    by_cases hj : j = i
    · rw [if_pos hj] at h
      obtain rfl := Option.some.inj h
      subst hj
      exact List.mem_cons_self _ _
    · rw [if_neg hj] at h
      exact List.mem_cons_of_mem _ (ih h)

lemma cacheRemove_subset (cache : List (Nat × List Nat)) (o : Nat) :
    ∀ p ∈ cacheRemove cache o, p ∈ cache := by
  induction cache with
  | nil =>
    intro p hp
    simpa [cacheRemove] using hp
  | cons q rest ih =>
    obtain ⟨j, dd⟩ := q
    intro p hp
    rw [cacheRemove] at hp
    by_cases hj : j = o
    · rw [if_pos hj] at hp
      exact List.mem_cons_of_mem _ hp
    · rw [if_neg hj] at hp
      rcases List.mem_cons.mp hp with rfl | hp2
      · exact List.mem_cons_self _ _
      · exact List.mem_cons_of_mem _ (ih p hp2)

lemma loadChunk_fields {inflate : List Nat → List Nat} {disk : Nat → Nat}
    {st st1 : PReader} {idx : Nat} {ev : Bool}
    (h : loadChunk inflate disk st idx = some (st1, ev)) :
    st1.chunks = st.chunks ∧ st1.pos = st.pos := by
  rw [loadChunk] at h
  by_cases hhit : (cacheGet st.cache idx).isSome = true
  · rw [if_pos hhit] at h
    obtain ⟨rfl, rfl⟩ := Prod.mk.inj (Option.some.inj h)
    exact ⟨rfl, rfl⟩
  · rw [if_neg hhit] at h
    cases hc : st.chunks.get? idx with
    | none =>
      rw [hc] at h
      exact absurd h (by simp)
    | some c =>
      rw [hc] at h
      dsimp only at h
      cases hd : decodeChunk inflate disk c with
      | none =>
        rw [hd] at h
        exact absurd h (by simp)
      | some data =>
        rw [hd] at h
        dsimp only at h
        by_cases hfull : MAX_CACHE_CHUNKS ≤ st.cache.length
        · rw [if_pos hfull] at h
          cases ho : st.cache_order with
          | nil =>
            rw [ho] at h
            obtain ⟨rfl, rfl⟩ := Prod.mk.inj (Option.some.inj h)
            exact ⟨rfl, rfl⟩
          | cons o ro =>
            rw [ho] at h
            obtain ⟨rfl, rfl⟩ := Prod.mk.inj (Option.some.inj h)
            exact ⟨rfl, rfl⟩
        · rw [if_neg hfull] at h
          obtain ⟨rfl, rfl⟩ := Prod.mk.inj (Option.some.inj h)
          exact ⟨rfl, rfl⟩

lemma loadChunk_some {inflate : List Nat → List Nat} {disk : Nat → Nat}
    {st : PReader} {idx : Nat} {c : BlkxChunk} {dc : List Nat}
    (hgc : st.chunks.get? idx = some c)
    (hdec : decodeChunk inflate disk c = some dc) :
    ∃ r, loadChunk inflate disk st idx = some r := by
  by_cases hhit : (cacheGet st.cache idx).isSome = true
  · exact ⟨_, by rw [loadChunk, if_pos hhit]⟩
  · by_cases hfull : MAX_CACHE_CHUNKS ≤ st.cache.length
    · cases ho : st.cache_order with
      | nil =>
        exact ⟨_, by
          rw [loadChunk, if_neg hhit, hgc]
          dsimp only
          rw [hdec]
          dsimp only
          rw [if_pos hfull, ho]⟩
      | cons o ro =>
        exact ⟨_, by
          rw [loadChunk, if_neg hhit, hgc]
          dsimp only
          rw [hdec]
          dsimp only
          rw [if_pos hfull, ho]⟩
    · exact ⟨_, by
        rw [loadChunk, if_neg hhit, hgc]
        dsimp only
        rw [hdec]
        dsimp only
        rw [if_neg hfull]⟩

lemma loadChunk_cacheOK {inflate : List Nat → List Nat} {disk : Nat → Nat}
    {st st1 : PReader} {idx : Nat} {ev : Bool}
    (hok : CacheOK inflate disk st)
    (h : loadChunk inflate disk st idx = some (st1, ev)) :
    CacheOK inflate disk st1 ∧
      ∀ c, st.chunks.get? idx = some c →
        ∀ dc, decodeChunk inflate disk c = some dc →
          cacheGet st1.cache idx = some dc := by
  rw [loadChunk] at h
  by_cases hhit : (cacheGet st.cache idx).isSome = true
  · rw [if_pos hhit] at h
    obtain ⟨rfl, rfl⟩ := Prod.mk.inj (Option.some.inj h)
    refine ⟨fun i d hm => hok i d hm, ?_⟩
    intro c hgc dc hdc
    obtain ⟨d0, hd0⟩ := Option.isSome_iff_exists.mp hhit
    have hmem := cacheGet_mem st.cache idx d0 hd0
    obtain ⟨c2, hc2, hdec2⟩ := hok idx d0 hmem
    rw [hgc] at hc2
    obtain rfl := Option.some.inj hc2
    rw [hdc] at hdec2
    obtain rfl := Option.some.inj hdec2
    exact hd0
  · rw [if_neg hhit] at h
    cases hc : st.chunks.get? idx with
    | none =>
      rw [hc] at h
      exact absurd h (by simp)
    | some c0 =>
      rw [hc] at h
      dsimp only at h
      cases hd : decodeChunk inflate disk c0 with
      | none =>
        rw [hd] at h
        exact absurd h (by simp)
      | some data =>
        rw [hd] at h
        dsimp only at h
        by_cases hfull : MAX_CACHE_CHUNKS ≤ st.cache.length
        · rw [if_pos hfull] at h
          cases ho : st.cache_order with
          | nil =>
            rw [ho] at h
            obtain ⟨rfl, rfl⟩ := Prod.mk.inj (Option.some.inj h)
            refine ⟨?_, ?_⟩
            · intro i d hm
              rcases List.mem_cons.mp hm with heq | hm2
              · obtain ⟨rfl, rfl⟩ := Prod.mk.inj heq
                exact ⟨c0, hc, hd⟩
              · exact hok i d hm2
            · intro c hgc dc hdc
              obtain rfl : c = c0 := (Option.some.inj hgc).symm
              obtain rfl : dc = data := Option.some.inj (hdc.symm.trans hd)
              show cacheGet ((idx, dc) :: st.cache) idx = some dc
              rw [cacheGet, if_pos rfl]
          | cons o ro =>
            rw [ho] at h
            obtain ⟨rfl, rfl⟩ := Prod.mk.inj (Option.some.inj h)
            refine ⟨?_, ?_⟩
            · intro i d hm
              rcases List.mem_cons.mp hm with heq | hm2
              · obtain ⟨rfl, rfl⟩ := Prod.mk.inj heq
                exact ⟨c0, hc, hd⟩
              · exact hok i d (cacheRemove_subset st.cache o (i, d) hm2)
            · intro c hgc dc hdc
              obtain rfl : c = c0 := (Option.some.inj hgc).symm
              obtain rfl : dc = data := Option.some.inj (hdc.symm.trans hd)
              show cacheGet ((idx, dc) :: cacheRemove st.cache o) idx =
                some dc
              rw [cacheGet, if_pos rfl]
        · rw [if_neg hfull] at h
          obtain ⟨rfl, rfl⟩ := Prod.mk.inj (Option.some.inj h)
          refine ⟨?_, ?_⟩
          · intro i d hm
            rcases List.mem_cons.mp hm with heq | hm2
            · obtain ⟨rfl, rfl⟩ := Prod.mk.inj heq
              exact ⟨c0, hc, hd⟩
            · exact hok i d hm2
          · intro c hgc dc hdc
            obtain rfl : c = c0 := (Option.some.inj hgc).symm
            obtain rfl : dc = data := Option.some.inj (hdc.symm.trans hd)
            show cacheGet ((idx, dc) :: st.cache) idx = some dc
            rw [cacheGet, if_pos rfl]

lemma readAux_step {inflate : List Nat → List Nat} {disk : Nat → Nat}
    {chunks : List BlkxChunk} {full : List Nat}
    (hv : Valid inflate disk chunks)
    (hfull : partitionData inflate disk chunks = some full)
    (f : Nat) (st : PReader) (buflen : Nat)
    (hch : st.chunks = chunks) (hok : CacheOK inflate disk st)
    (hpos : st.pos < 512 * totalSectors chunks) (hbl : buflen ≠ 0) :
    ∃ n st1,
      readAux inflate disk (f + 1) st buflen =
        some ((full.drop st.pos).take n, st1) ∧
      1 ≤ n ∧ n ≤ buflen ∧ st1.pos = st.pos + n ∧
      st1.chunks = chunks ∧ CacheOK inflate disk st1 := by
  have hsec : st.pos / 512 < totalSectors chunks := by omega
  obtain ⟨k, hk, hfc, hcle, hclt⟩ :=
    (findCover_spec chunks 0 (st.pos / 512) hv.1 (Nat.zero_le _)).1 (by omega)
  obtain ⟨c, hcget⟩ : ∃ c, chunks.get ⟨k, hk⟩ = c := ⟨_, rfl⟩
  rw [hcget] at hcle hclt
  have hgc : chunks.get? k = some c := by
    rw [List.get?_eq_get hk, hcget]
  have hgc2 : st.chunks.get? k = some c := by
    rw [hch]
    exact hgc
  have hcmem : c ∈ chunks := by
    rw [← hcget]
    exact List.get_mem chunks k hk
  obtain ⟨d, hdec, hdl⟩ := decode_len (hv.2 c hcmem)
  obtain ⟨r, hload⟩ := loadChunk_some hgc2 hdec
  obtain ⟨st1, ev⟩ := r
  obtain ⟨hch1, hpos1⟩ := loadChunk_fields hload
  obtain ⟨hok1, hcached⟩ := loadChunk_cacheOK hok hload
  have hcg : cacheGet st1.cache k = some d := hcached c hgc2 d hdec
  have hchle : c.sector_number * 512 ≤ st.pos := by
    have h1 : c.sector_number * 512 ≤ (st.pos / 512) * 512 :=
      Nat.mul_le_mul_right 512 hcle
    have h2 : (st.pos / 512) * 512 ≤ st.pos := Nat.div_mul_le_self _ _
    omega
  have hposlt : st.pos < (c.sector_number + c.sector_count) * 512 :=
    (Nat.div_lt_iff_lt_mul (by norm_num)).mp hclt
  have hav : ¬(d.length - (st.pos - c.sector_number * 512) = 0) := by
    rw [hdl]
    omega
  obtain ⟨hb, db, tb, hpd, hhl, hble0, hdec2⟩ :=
    partitionData_decomp inflate disk chunks 0 k hk hv.1 hv.2
  rw [hcget] at hhl hdec2
  rw [hdec] at hdec2
  obtain rfl := Option.some.inj hdec2
  rw [Nat.sub_zero] at hhl
  rw [hfull] at hpd
  obtain rfl := Option.some.inj hpd
  have hg : getChunkAtPos st.chunks st.pos = some k := by
    rw [getChunkAtPos, hch]
    exact hfc
  have hdoff : st.pos = hb.length + (st.pos - c.sector_number * 512) := by
    rw [hhl]
    omega
  have hoffle : st.pos - c.sector_number * 512 ≤ d.length := by
    rw [hdl]
    omega
  have hnil : hb.drop (hb.length + (st.pos - c.sector_number * 512)) = [] :=
    List.drop_eq_nil_of_le (by omega)
  have hsub0 : st.pos - c.sector_number * 512 - d.length = 0 :=
    Nat.sub_eq_zero_of_le hoffle
  have hsplit : (hb ++ d ++ tb).drop st.pos =
      d.drop (st.pos - c.sector_number * 512) ++ tb := by
    rw [List.append_assoc]
    conv_lhs => rw [hdoff]
    rw [List.drop_append_eq_append_drop, hnil, Nat.add_sub_cancel_left,
      List.nil_append, List.drop_append_eq_append_drop, hsub0,
      List.drop_zero]
  have htake : ((hb ++ d ++ tb).drop st.pos).take
        (min buflen (d.length - (st.pos - c.sector_number * 512))) =
      (d.drop (st.pos - c.sector_number * 512)).take
        (min buflen (d.length - (st.pos - c.sector_number * 512))) := by
    rw [hsplit]
    refine List.take_append_of_le_length ?_
    rw [List.length_drop]
    omega
  obtain ⟨nn, hnn⟩ : ∃ nn, nn = min buflen
      (d.length - (st.pos - c.sector_number * 512)) := ⟨_, rfl⟩
  refine ⟨nn, { st1 with pos := st.pos + nn }, ?_, ?_, ?_, ?_, ?_, ?_⟩
  · rw [readAux, if_neg hbl, hg]
    dsimp only
    rw [hch, hgc]
    dsimp only
    rw [hload]
    dsimp only
    rw [hcg]
    dsimp only
    rw [if_neg hav, hnn, htake]
  · omega
  · omega
  · rfl
  · show st1.chunks = chunks
    rw [hch1]
    exact hch
  · intro i dd hm
    exact hok1 i dd hm

lemma readN_take {inflate : List Nat → List Nat} {disk : Nat → Nat}
    {chunks : List BlkxChunk} {full : List Nat}
    (hv : Valid inflate disk chunks)
    (hfull : partitionData inflate disk chunks = some full)
    (hflen : full.length = 512 * totalSectors chunks) :
    ∀ (fuel : Nat) (st : PReader) (want : Nat), want < fuel →
    st.chunks = chunks → CacheOK inflate disk st →
    st.pos + want ≤ 512 * totalSectors chunks →
    ∃ st2, readN inflate disk fuel st want =
      some ((full.drop st.pos).take want, st2) := by
  intro fuel
  induction fuel with
  | zero =>
    intro st want hw
    exact absurd hw (Nat.not_lt_zero _)
  | succ f ih =>
    intro st want hw hch hok hbound
    by_cases hw0 : want = 0
    · subst hw0
      exact ⟨st, by rw [readN, if_pos rfl, List.take_zero]⟩
    · have hpos : st.pos < 512 * totalSectors chunks := by omega
      obtain ⟨n, st1, hread, hn1, hnb, hpos1, hch1, hok1⟩ :=
        readAux_step hv hfull st.chunks.length st want hch hok hpos hw0
      have hrp : readP inflate disk st want =
          some ((full.drop st.pos).take n, st1) := hread
      have hlenb : ((full.drop st.pos).take n).length = n := by
        rw [List.length_take, List.length_drop]
        omega
      have hne : ¬(((full.drop st.pos).take n).isEmpty = true) := by
        intro hemp
        have hnil : (full.drop st.pos).take n = [] := by
          cases hl : (full.drop st.pos).take n with
          | nil => rfl
          | cons a l =>
            rw [hl] at hemp
            exact absurd hemp (by simp [List.isEmpty])
        rw [hnil] at hlenb
        simp at hlenb
        omega
      obtain ⟨st2, hrec⟩ := ih st1 (want - n) (by omega) hch1 hok1 (by omega)
      have hcomb : (full.drop st.pos).take n ++
          (full.drop (st.pos + n)).take (want - n) =
          (full.drop st.pos).take want := by
        have hdd : full.drop (st.pos + n) = (full.drop st.pos).drop n := by
          rw [List.drop_drop, Nat.add_comm]
        have hws : want = n + (want - n) := by omega
        rw [hdd]
        conv_rhs => rw [hws, List.take_add]
      refine ⟨st2, ?_⟩
      rw [readN, if_neg hw0, hrp]
      dsimp only
      rw [if_neg hne, hlenb, hrec]
      dsimp only
      rw [hpos1, hcomb]

/-- C7: one-shot vs seekable reads of a valid DMG partition agree on every
chunk-boundary prefix.  For a partition whose chunk table is contiguous
from sector 0 with every chunk decoding to its `sector_count * 512` bytes,
`partition_data` succeeds, its output spans exactly `512 * totalSectors`
bytes, and reading the first `byteBoundary chunks k` bytes (the boundary
after any first `k` chunks) through a fresh `DmgPartitionReader` returns
exactly that prefix of `partition_data`'s output. -/
theorem partition_reader_equivalence (inflate : List Nat → List Nat)
    (disk : Nat → Nat) (chunks : List BlkxChunk)
    (hv : Valid inflate disk chunks) (k : Nat) (hk : k ≤ chunks.length) :
    ∃ full st2,
      partitionData inflate disk chunks = some full ∧
      full.length = 512 * totalSectors chunks ∧
      readN inflate disk (byteBoundary chunks k + 1) (initReader chunks)
          (byteBoundary chunks k) =
        some (full.take (byteBoundary chunks k), st2) := by
  obtain ⟨full, hfull, hflen⟩ := partitionData_spec inflate disk chunks hv.2
  have hts : totalSectors (chunks.take k) ≤ totalSectors chunks := by
    have hsplit := totalSectors_append (chunks.take k) (chunks.drop k)
    rw [List.take_append_drop] at hsplit
    omega
  have hbb : byteBoundary chunks k ≤ 512 * totalSectors chunks := by
    rw [byteBoundary]
    omega
  have hok0 : CacheOK inflate disk (initReader chunks) := by
    intro i d hm
    simp [initReader] at hm
  have hposb : (initReader chunks).pos + byteBoundary chunks k ≤
      512 * totalSectors chunks := by
    show 0 + byteBoundary chunks k ≤ 512 * totalSectors chunks
    omega
  obtain ⟨st2, hrd⟩ := readN_take hv hfull hflen (byteBoundary chunks k + 1)
    (initReader chunks) (byteBoundary chunks k) (by omega) rfl hok0 hposb
  refine ⟨full, st2, hfull, hflen, ?_⟩
  have h0 : (initReader chunks).pos = 0 := rfl
  rw [hrd, h0, List.drop_zero]

lemma valid7 : Valid (fun l => l) (fun i => i % 256) chunks7 := by
  constructor
  · exact ⟨rfl, rfl, trivial⟩
  · intro c hc
    simp only [chunks7, List.mem_cons, List.not_mem_nil, or_false] at hc
    rcases hc with rfl | rfl
    · rfl
    · rfl

/-- C7 (witness): on the concrete partition `chunks7` — one Raw chunk and
a Term chunk — the validity hypotheses hold at boundary index 1 (byte 512)
and the equivalence theorem applies. -/
theorem partition_reader_equivalence_witness :
    ∃ full st2,
      partitionData (fun l => l) (fun i => i % 256) chunks7 = some full ∧
      full.length = 512 * totalSectors chunks7 ∧
      readN (fun l => l) (fun i => i % 256) (byteBoundary chunks7 1 + 1)
          (initReader chunks7) (byteBoundary chunks7 1) =
        some (full.take (byteBoundary chunks7 1), st2) :=
  partition_reader_equivalence (fun l => l) (fun i => i % 256) chunks7
    valid7 1 (by decide)

end Dmg

end GravityOS
